import Mathlib

/-!
Bounded blocking FIFO queue (`src/src/lab.c`).

A shallow embedding of the ring-buffer queue of `lab.c` and a verification of
its contract.

Modelling conventions.

* A `void *` is its address (`Ptr := Nat`), `NULL` is address `0`.
* The C `int` fields are `Int`; `%` is C's truncating remainder `Int.tmod`.
  On every state reachable from `queue_init` the values `tail + 1`, `head + 1`
  and `count + 1` are at most `capacity`, so no `int` computation overflows.
* The mutex makes the part of every operation between its last evaluation of
  the `while` condition and `pthread_mutex_unlock` one atomic step on the
  fields.  An operation whose `while` condition holds is suspended in
  `pthread_cond_wait` and has changed nothing: this is the outcome `waits`.
* A buffer access outside the allocated slots and a remainder by zero are
  undefined behaviour in C: this is the outcome `fault`.
* `malloc` returns storage with indeterminate contents; the contents of the
  fresh buffer are a parameter of `queue_init`.
-/

namespace Lab

/-- A C pointer, modelled by its address. -/
abbrev Ptr := Nat

/-- The null pointer, which `dequeue` returns as the empty-marker. -/
def NULL : Ptr := 0

/-- The fields of `struct queue` that the operations read and write
(`mtx`, `not_full`, `not_empty` carry no data). -/
structure queue where
  buf : List Ptr
  capacity : Int
  head : Int
  tail : Int
  count : Int
  shutdown : Bool
  deriving DecidableEq, Repr

/-- A queue handle `queue_t` (a `struct queue *`): `none` is `NULL`, `some s`
points to a live queue whose fields are `s`. -/
abbrev queue_t := Option queue

/-- What the two `malloc` calls of `queue_init` return: whether the allocation
of the `struct queue` succeeds, and for the buffer either failure (`none`) or
the indeterminate contents of the fresh block, slot by slot. -/
structure Heap where
  struct_ok : Bool
  slots : Option (Nat → Ptr)

/-- How a call ends: suspended in `pthread_cond_wait` (`waits`), undefined
behaviour (`fault`), or a return with value `v` that leaves the state `q`. -/
inductive Outcome (σ : Type) (α : Type) where
  | waits : Outcome σ α
  | fault : Outcome σ α
  | returns (q : σ) (v : α) : Outcome σ α
  deriving DecidableEq, Repr

/-- Whether index `i` is one of the allocated slots of `buf`. -/
def in_bounds (buf : List Ptr) (i : Int) : Bool :=
  decide (0 ≤ i) && decide (i < (buf.length : Int))

/-- Embedding of `queue_init` (lab.c:21-39). -/
def queue_init (capacity : Int) (m : Heap) : queue_t :=
  let capacity := if capacity ≤ 0 then 1 else capacity
  if !m.struct_ok then none
  else
    match m.slots with
    | none => none
    | some junk =>
      some { buf := (List.range capacity.toNat).map junk
             capacity := capacity
             head := 0
             tail := 0
             count := 0
             shutdown := false }

/-- Embedding of `queue_destroy` (lab.c:45-57): after the call the queue object
no longer exists. -/
def queue_destroy (q : queue_t) : Outcome queue_t Unit :=
  match q with
  | none => .returns none ()
  | some _ => .returns none ()

/-- Embedding of `enqueue` (lab.c:63-76). -/
def enqueue (q : queue_t) (data : Ptr) : Outcome queue_t Unit :=
  match q with
  | none => .returns none ()
  | some s =>
    if !s.shutdown && s.count == s.capacity then .waits
    else if !s.shutdown then
      if !in_bounds s.buf s.tail || s.capacity == 0 then .fault
      else
        .returns (some { s with buf := s.buf.set s.tail.toNat data
                                tail := (s.tail + 1).tmod s.capacity
                                count := s.count + 1 }) ()
    else .returns (some s) ()

/-- Embedding of `dequeue` (lab.c:82-98). -/
def dequeue (q : queue_t) : Outcome queue_t Ptr :=
  match q with
  | none => .returns none NULL
  | some s =>
    if !s.shutdown && s.count == 0 then .waits
    else if s.count == 0 && s.shutdown then .returns (some s) NULL
    else if !in_bounds s.buf s.head || s.capacity == 0 then .fault
    else
      .returns (some { s with head := (s.head + 1).tmod s.capacity
                              count := s.count - 1 })
        (s.buf.getD s.head.toNat NULL)

/-- Embedding of `queue_shutdown` (lab.c:104-111). -/
def queue_shutdown (q : queue_t) : Outcome queue_t Unit :=
  match q with
  | none => .returns none ()
  | some s => .returns (some { s with shutdown := true }) ()

/-- Embedding of `is_empty` (lab.c:117-123). -/
def is_empty (q : queue_t) : Outcome queue_t Bool :=
  match q with
  | none => .returns none true
  | some s => .returns (some s) (s.count == 0)

/-- Embedding of `is_shutdown` (lab.c:129-135). -/
def is_shutdown (q : queue_t) : Outcome queue_t Bool :=
  match q with
  | none => .returns none true
  | some s => .returns (some s) s.shutdown

/-! ## Call sequences -/

/-- One call of the public interface on a live or null handle. -/
inductive Op where
  | enq (data : Ptr)
  | deq
  | shut
  | empty
  | isshut
  deriving DecidableEq, Repr

/-- The value a call returns. -/
inductive Ret where
  | unit
  | ptr (p : Ptr)
  | bool (b : Bool)
  deriving DecidableEq, Repr

/-- Change the returned value of an outcome. -/
def Outcome.mapv {σ α β : Type} (f : α → β) : Outcome σ α → Outcome σ β
  | .waits => .waits
  | .fault => .fault
  | .returns q v => .returns q (f v)

/-- Change the state of an outcome. -/
def Outcome.maps {σ τ α : Type} (f : σ → τ) : Outcome σ α → Outcome τ α
  | .waits => .waits
  | .fault => .fault
  | .returns q v => .returns (f q) v

/-- Perform the call `o` on the handle `q`. -/
def call (q : queue_t) : Op → Outcome queue_t Ret
  | .enq data => (enqueue q data).mapv (fun _ => Ret.unit)
  | .deq => (dequeue q).mapv Ret.ptr
  | .shut => (queue_shutdown q).mapv (fun _ => Ret.unit)
  | .empty => (is_empty q).mapv Ret.bool
  | .isshut => (is_shutdown q).mapv Ret.bool

/-- Perform the calls `ops` one after the other, each as one atomic step, and
collect the returned values.  The sequence stops at the first call that waits
or faults. -/
def run (q : queue_t) : List Op → Outcome queue_t (List Ret)
  | [] => .returns q []
  | o :: os =>
    match call q o with
    | .waits => .waits
    | .fault => .fault
    | .returns q1 v => (run q1 os).mapv (fun vs => v :: vs)

/-- The heap on which both allocations of `queue_init` succeed and the fresh
buffer holds `junk`. -/
def heap_ok (junk : Nat → Ptr) : Heap := { struct_ok := true, slots := some junk }

/-- The states reachable from `queue_init c` by calls that return. -/
def Reachable (c : Int) (junk : Nat → Ptr) (s : queue) : Prop :=
  ∃ ops vs, run (queue_init c (heap_ok junk)) ops = .returns (some s) vs

/-- The items held by the queue, oldest first: `buf[head]`,
`buf[(head+1) mod capacity]`, ..., `count` of them. -/
def contents (s : queue) : List Ptr :=
  (List.range s.count.toNat).map
    (fun (i : Nat) => s.buf.getD ((s.head + (i : Int)) % s.capacity).toNat NULL)

/-- Well-formed ring: the buffer has `capacity >= 1` slots, `head` is one of
them, at most `capacity` items are held and `tail` is `count` slots after
`head`. -/
def wf (s : queue) : Prop :=
  1 ≤ s.capacity ∧ (s.buf.length : Int) = s.capacity ∧
  0 ≤ s.head ∧ s.head < s.capacity ∧
  0 ≤ s.count ∧ s.count ≤ s.capacity ∧
  s.tail = (s.head + s.count) % s.capacity

instance (s : queue) : Decidable (wf s) := by
  unfold wf; infer_instance

/-- The state `enqueue` leaves when it stores `data` (lab.c:70-72). -/
def stored (s : queue) (data : Ptr) : queue :=
  { s with buf := s.buf.set s.tail.toNat data
           tail := (s.tail + 1).tmod s.capacity
           count := s.count + 1 }

/-- The state `dequeue` leaves when it takes an item (lab.c:93-94). -/
def taken (s : queue) : queue :=
  { s with head := (s.head + 1).tmod s.capacity
           count := s.count - 1 }

/-! ## The queue as the specification describes it -/

/-- A bounded FIFO queue of the specification: a capacity, the items held in
the order they were enqueued, and the shutdown flag. -/
structure fifo where
  cap : Int
  items : List Ptr
  closed : Bool
  deriving DecidableEq, Repr

/-- The specification's `init`: `max(capacity, 1)` slots, empty, not shut
down. -/
def fifo_init (c : Int) : fifo := { cap := max c 1, items := [], closed := false }

/-- The specification's operations on the list of items: an accepted enqueue
appends at the end, a dequeue removes and returns the first item, enqueue
waits while full and active, dequeue waits while empty and active, enqueue
after shutdown is dropped, dequeue on a shut-down empty queue returns the
empty-marker. -/
def fifo_call (a : fifo) : Op → Outcome fifo Ret
  | .enq x =>
    if a.closed then .returns a Ret.unit
    else if (a.items.length : Int) = a.cap then .waits
    else .returns { a with items := a.items ++ [x] } Ret.unit
  | .deq =>
    match a.items with
    | [] => if a.closed then .returns a (Ret.ptr NULL) else .waits
    | x :: rest => .returns { a with items := rest } (Ret.ptr x)
  | .shut => .returns { a with closed := true } Ret.unit
  | .empty => .returns a (Ret.bool a.items.isEmpty)
  | .isshut => .returns a (Ret.bool a.closed)

/-- A sequence of calls on the specification's queue. -/
def fifo_run (a : fifo) : List Op → Outcome fifo (List Ret)
  | [] => .returns a []
  | o :: os =>
    match fifo_call a o with
    | .waits => .waits
    | .fault => .fault
    | .returns a1 v => (fifo_run a1 os).mapv (fun vs => v :: vs)

/-- The specification's view of a queue state. -/
def view (s : queue) : fifo :=
  { cap := s.capacity, items := contents s, closed := s.shutdown }

/-! ## Items accepted and items handed out -/

/-- The items that the enqueues of a sequence of calls store, in the order they
are stored: an `enqueue` that returns has stored its item exactly when the
test `!q->shutdown` of lab.c:69 succeeded. -/
def accepted (q : queue_t) : List Op → List Ptr
  | [] => []
  | o :: os =>
    match call q o with
    | .waits => []
    | .fault => []
    | .returns q1 _ =>
      match q, o with
      | some s, .enq x => if !s.shutdown then x :: accepted q1 os else accepted q1 os
      | _, _ => accepted q1 os

/-- The items that the dequeues of a sequence of calls hand out, in order: a
`dequeue` that returns hands out the item it read from the buffer unless the
test `count == 0 && shutdown` of lab.c:88 succeeded (then it returns the
empty-marker and takes nothing). -/
def handed_out (q : queue_t) : List Op → List Ptr
  | [] => []
  | o :: os =>
    match call q o with
    | .waits => []
    | .fault => []
    | .returns q1 v =>
      match q, o, v with
      | some s, .deq, .ptr p =>
        if s.count == 0 && s.shutdown then handed_out q1 os else p :: handed_out q1 os
      | _, _, _ => handed_out q1 os

/-! ## Ring arithmetic and buffer access -/

theorem slot_ne {h cap i j : Int} (hij : i < j) (hj : j < cap + i) :
    (h + i) % cap ≠ (h + j) % cap := by
  intro he
  have h1 : ((h + j) - (h + i)) % cap = 0 := Int.emod_eq_emod_iff_emod_sub_eq_zero.mp he.symm
  have h2 : (h + j) - (h + i) = j - i := by ring
  rw [h2, Int.emod_eq_of_lt (by omega) (by omega)] at h1
  omega

theorem getD_set_self (l : List Ptr) (i : Nat) (x d : Ptr) (hi : i < l.length) :
    (l.set i x).getD i d = x := by
  simp [List.getD_eq_getElem?_getD, hi]

theorem getD_set_other (l : List Ptr) (i j : Nat) (x d : Ptr) (hij : i ≠ j) :
    (l.set i x).getD j d = l.getD j d := by
  simp [List.getD_eq_getElem?_getD, List.getElem?_set_ne hij]

theorem wf_tail_bounds {s : queue} (h : wf s) : 0 ≤ s.tail ∧ s.tail < s.capacity := by
  obtain ⟨h1, _, _, _, _, _, h7⟩ := h
  rw [h7]
  exact ⟨Int.emod_nonneg _ (by omega), Int.emod_lt_of_pos _ (by omega)⟩

theorem enqueue_stores {s : queue} (h : wf s) (hs : s.shutdown = false)
    (hc : s.count < s.capacity) (x : Ptr) :
    enqueue (some s) x = .returns (some (stored s x)) () := by
  have ht := wf_tail_bounds h
  obtain ⟨h1, h2, _, _, _, _, _⟩ := h
  have hne : s.count ≠ s.capacity := by omega
  have hc0 : s.capacity ≠ 0 := by omega
  simp [enqueue, stored, hs, hne, hc0, in_bounds, ht.1, h2, ht.2]

theorem dequeue_takes {s : queue} (h : wf s) (hc : 0 < s.count) :
    dequeue (some s) = .returns (some (taken s)) (s.buf.getD s.head.toNat NULL) := by
  obtain ⟨h1, h2, h3, h4, _, _, _⟩ := h
  have hne : s.count ≠ 0 := by omega
  have hc0 : s.capacity ≠ 0 := by omega
  simp [dequeue, taken, hne, hc0, in_bounds, h2, h3, h4]

theorem wf_stored {s : queue} (h : wf s) (hc : s.count < s.capacity) (x : Ptr) :
    wf (stored s x) := by
  have ht := wf_tail_bounds h
  obtain ⟨h1, h2, h3, h4, h5, h6, h7⟩ := h
  refine ⟨h1, ?_, h3, h4, ?_, ?_, ?_⟩
  · simpa [stored] using h2
  · show 0 ≤ s.count + 1
    omega
  · show s.count + 1 ≤ s.capacity
    omega
  · show (s.tail + 1).tmod s.capacity = (s.head + (s.count + 1)) % s.capacity
    rw [Int.tmod_eq_emod (by omega) (by omega), h7, Int.emod_add_emod, Int.add_assoc]

theorem wf_taken {s : queue} (h : wf s) (hc : 0 < s.count) : wf (taken s) := by
  obtain ⟨h1, h2, h3, h4, h5, h6, h7⟩ := h
  have he : (s.head + 1).tmod s.capacity = (s.head + 1) % s.capacity :=
    Int.tmod_eq_emod (by omega) (by omega)
  refine ⟨h1, h2, ?_, ?_, ?_, ?_, ?_⟩
  · show 0 ≤ (s.head + 1).tmod s.capacity
    rw [he]; exact Int.emod_nonneg _ (by omega)
  · show (s.head + 1).tmod s.capacity < s.capacity
    rw [he]; exact Int.emod_lt_of_pos _ (by omega)
  · show 0 ≤ s.count - 1
    omega
  · show s.count - 1 ≤ s.capacity
    omega
  · show s.tail = ((s.head + 1).tmod s.capacity + (s.count - 1)) % s.capacity
    rw [he, Int.emod_add_emod, h7]
    congr 1; ring

theorem contents_stored {s : queue} (h : wf s) (hc : s.count < s.capacity) (x : Ptr) :
    contents (stored s x) = contents s ++ [x] := by
  have ht := wf_tail_bounds h
  obtain ⟨h1, h2, h3, h4, h5, h6, h7⟩ := h
  have hn : (s.count + 1).toNat = s.count.toNat + 1 := by omega
  have hcast : ((s.count.toNat : Nat) : Int) = s.count := Int.toNat_of_nonneg h5
  unfold contents
  show List.map (fun (i : Nat) => (s.buf.set s.tail.toNat x).getD
      ((s.head + (i : Int)) % s.capacity).toNat NULL) (List.range (s.count + 1).toNat) = _
  rw [hn, List.range_succ, List.map_append]
  congr 1
  · apply List.map_congr_left
    intro i hi
    rw [List.mem_range] at hi
    apply getD_set_other
    have hi2 : (i : Int) < s.count := by omega
    have hne : (s.head + (i : Int)) % s.capacity ≠ (s.head + s.count) % s.capacity :=
      slot_ne hi2 (by omega)
    have hnn : 0 ≤ (s.head + (i : Int)) % s.capacity := Int.emod_nonneg _ (by omega)
    rw [← h7] at hne
    omega
  · simp only [List.map_cons, List.map_nil, hcast, ← h7]
    rw [getD_set_self]
    omega

theorem contents_taken {s : queue} (h : wf s) (hc : 0 < s.count) :
    contents s = s.buf.getD s.head.toNat NULL :: contents (taken s) := by
  obtain ⟨h1, h2, h3, h4, h5, h6, h7⟩ := h
  have he : (s.head + 1).tmod s.capacity = (s.head + 1) % s.capacity :=
    Int.tmod_eq_emod (by omega) (by omega)
  have hn : s.count.toNat = (s.count - 1).toNat + 1 := by omega
  unfold contents
  show _ = _ :: List.map (fun (i : Nat) => s.buf.getD
      (((s.head + 1).tmod s.capacity + (i : Int)) % s.capacity).toNat NULL)
        (List.range (s.count - 1).toNat)
  rw [hn, List.range_succ_eq_map, List.map_cons, List.map_map]
  congr 1
  · simp [Int.emod_eq_of_lt h3 h4]
  · apply List.map_congr_left
    intro i _
    simp only [Function.comp, he, Int.emod_add_emod]
    congr 3
    push_cast
    ring

theorem contents_length (s : queue) : (contents s).length = s.count.toNat := by
  simp [contents]

@[simp]
theorem stored_capacity (s : queue) (x : Ptr) : (stored s x).capacity = s.capacity := rfl

@[simp]
theorem stored_shutdown (s : queue) (x : Ptr) : (stored s x).shutdown = s.shutdown := rfl

@[simp]
theorem taken_capacity (s : queue) : (taken s).capacity = s.capacity := rfl

@[simp]
theorem taken_shutdown (s : queue) : (taken s).shutdown = s.shutdown := rfl

theorem queue_init_eq (c : Int) (junk : Nat → Ptr) :
    queue_init c (heap_ok junk) =
      some { buf := (List.range (max c 1).toNat).map junk, capacity := max c 1,
             head := 0, tail := 0, count := 0, shutdown := false } := by
  by_cases hc : c ≤ 0
  · have hm : max c 1 = 1 := max_eq_right (by omega)
    simp [queue_init, heap_ok, hc, hm]
  · have hm : max c 1 = c := max_eq_left (by omega)
    simp [queue_init, heap_ok, hc, hm]

theorem wf_init (c : Int) (junk : Nat → Ptr) :
    wf { buf := (List.range (max c 1).toNat).map junk, capacity := max c 1,
         head := 0, tail := 0, count := 0, shutdown := false } := by
  have h1 : 1 ≤ max c 1 := le_max_right c 1
  simp only [wf, List.length_map, List.length_range]
  refine ⟨h1, ?_, ?_, ?_, ?_, ?_, ?_⟩ <;> first | omega | simp

/-- One call on a well-formed state, case by case. -/
theorem call_sim {s : queue} (h : wf s) (o : Op) :
    (call (some s) o).maps (Option.map view) = (fifo_call (view s) o).maps some ∧
    ∀ q v, call (some s) o = .returns q v → ∃ s', q = some s' ∧ wf s' := by
  have hlen : ((contents s).length : Int) = s.count := by
    rw [contents_length]; exact Int.toNat_of_nonneg h.2.2.2.2.1
  cases o with
  | enq x =>
    cases hs : s.shutdown with
    | true =>
      constructor
      · simp [call, enqueue, hs, Outcome.mapv, Outcome.maps, fifo_call, view]
      · intro q v hq
        simp [call, enqueue, hs, Outcome.mapv] at hq
        exact ⟨s, hq.1.symm, h⟩
    | false =>
      by_cases hc : s.count = s.capacity
      · constructor
        · simp [call, enqueue, hs, hc, Outcome.mapv, Outcome.maps, fifo_call, view, hlen]
        · intro q v hq
          simp [call, enqueue, hs, hc, Outcome.mapv] at hq
      · have hlt : s.count < s.capacity := by
          have := h.2.2.2.2.2.1
          omega
        rw [call, enqueue_stores h hs hlt]
        constructor
        · simp [Outcome.mapv, Outcome.maps, fifo_call, view, hlen, hc, contents_stored h hlt, hs]
        · intro q v hq
          simp [Outcome.mapv] at hq
          exact ⟨_, hq.1.symm, wf_stored h hlt x⟩
  | deq =>
    by_cases hc : s.count = 0
    · have hnil : contents s = [] := by simp [contents, hc]
      cases hs : s.shutdown with
      | true =>
        constructor
        · simp [call, dequeue, hs, hc, Outcome.mapv, Outcome.maps, fifo_call, view, hnil]
        · intro q v hq
          simp [call, dequeue, hs, hc, Outcome.mapv] at hq
          exact ⟨s, hq.1.symm, h⟩
      | false =>
        constructor
        · simp [call, dequeue, hs, hc, Outcome.mapv, Outcome.maps, fifo_call, view, hnil]
        · intro q v hq
          simp [call, dequeue, hs, hc, Outcome.mapv] at hq
    · have hpos : 0 < s.count := by
        have := h.2.2.2.2.1
        omega
      rw [call, dequeue_takes h hpos]
      constructor
      · simp [Outcome.mapv, Outcome.maps, fifo_call, view, contents_taken h hpos]
      · intro q v hq
        simp [Outcome.mapv] at hq
        exact ⟨_, hq.1.symm, wf_taken h hpos⟩
  | shut =>
    constructor
    · simp [call, queue_shutdown, Outcome.mapv, Outcome.maps, fifo_call, view, contents]
    · intro q v hq
      simp [call, queue_shutdown, Outcome.mapv] at hq
      exact ⟨_, hq.1.symm, h⟩
  | empty =>
    constructor
    · have : (contents s).isEmpty = (s.count == 0) := by
        by_cases hc : s.count = 0
        · simp [contents, hc]
        · have hne : contents s ≠ [] := by
            intro hn
            rw [hn] at hlen
            simp at hlen
            omega
          rw [List.isEmpty_eq_false.mpr hne]
          exact (beq_eq_false_iff_ne.mpr hc).symm
      simp [call, is_empty, Outcome.mapv, Outcome.maps, fifo_call, view, this]
    · intro q v hq
      simp [call, is_empty, Outcome.mapv] at hq
      exact ⟨_, hq.1.symm, h⟩
  | isshut =>
    constructor
    · simp [call, is_shutdown, Outcome.mapv, Outcome.maps, fifo_call, view]
    · intro q v hq
      simp [call, is_shutdown, Outcome.mapv] at hq
      exact ⟨_, hq.1.symm, h⟩

theorem maps_mapv {σ τ α β : Type} (f : σ → τ) (g : α → β) (x : Outcome σ α) :
    (x.mapv g).maps f = (x.maps f).mapv g := by
  cases x <;> rfl

/-- A returning sequence from a well-formed state ends in a well-formed state. -/
theorem run_wf {s : queue} (h : wf s) (ops : List Op) (q : queue_t) (vs : List Ret)
    (hr : run (some s) ops = .returns q vs) : ∃ s', q = some s' ∧ wf s' := by
  induction ops generalizing s vs with
  | nil =>
    simp [run] at hr
    exact ⟨s, hr.1.symm, h⟩
  | cons o os ih =>
    cases hc : call (some s) o with
    | waits => simp [run, hc] at hr
    | fault => simp [run, hc] at hr
    | returns q1 v =>
      obtain ⟨s1, rfl, hw⟩ := (call_sim h o).2 q1 v hc
      simp only [run, hc] at hr
      cases hr1 : run (some s1) os with
      | waits => simp [hr1, Outcome.mapv] at hr
      | fault => simp [hr1, Outcome.mapv] at hr
      | returns q2 vs2 =>
        simp [hr1, Outcome.mapv] at hr
        obtain ⟨hq, -⟩ := hr
        subst hq
        exact ih hw vs2 hr1

/-- Sequences of calls on a well-formed state and on its specification view
end the same way. -/
theorem run_sim {s : queue} (h : wf s) (ops : List Op) :
    (run (some s) ops).maps (Option.map view) = (fifo_run (view s) ops).maps some := by
  induction ops generalizing s with
  | nil => simp [run, fifo_run, Outcome.maps]
  | cons o os ih =>
    obtain ⟨h1, h2⟩ := call_sim h o
    cases hc : call (some s) o with
    | waits =>
      rw [hc] at h1
      cases hf : fifo_call (view s) o <;> rw [hf] at h1 <;> simp [Outcome.maps] at h1
      simp [run, fifo_run, hc, hf, Outcome.maps]
    | fault =>
      rw [hc] at h1
      cases hf : fifo_call (view s) o <;> rw [hf] at h1 <;> simp [Outcome.maps] at h1
      simp [run, fifo_run, hc, hf, Outcome.maps]
    | returns q v =>
      obtain ⟨s1, rfl, hw⟩ := h2 q v hc
      rw [hc] at h1
      cases hf : fifo_call (view s) o <;> rw [hf] at h1 <;> simp [Outcome.maps] at h1
      obtain ⟨ha, hv⟩ := h1
      subst ha hv
      simp only [run, fifo_run, hc, hf, maps_mapv, ih hw]

theorem reachable_wf {c : Int} {junk : Nat → Ptr} {s : queue} (h : Reachable c junk s) :
    wf s := by
  obtain ⟨ops, vs, hr⟩ := h
  rw [queue_init_eq] at hr
  obtain ⟨s', hs', hw⟩ := run_wf (wf_init c junk) ops _ vs hr
  cases hs'
  exact hw

/-! ## The specification view -/

/-- The specification view of the state `queue_init` builds. -/
theorem view_init (c : Int) (junk : Nat → Ptr) :
    view { buf := (List.range (max c 1).toNat).map junk, capacity := max c 1,
           head := 0, tail := 0, count := 0, shutdown := false } = fifo_init c := by
  simp [view, fifo_init, contents]

theorem maps_eq_returns {σ τ α : Type} {f : σ → τ} {x : Outcome σ α} {b : τ} {v : α}
    (h : x.maps f = .returns b v) : ∃ q, x = .returns q v ∧ f q = b := by
  cases x with
  | waits => simp [Outcome.maps] at h
  | fault => simp [Outcome.maps] at h
  | returns q w =>
    simp [Outcome.maps] at h
    exact ⟨q, by rw [h.2], h.1⟩

/-- From a run of the specification to the run of the code. -/
theorem run_of_fifo_run {s : queue} (h : wf s) {ops : List Op} {a : fifo}
    {vs : List Ret} (hf : fifo_run (view s) ops = .returns a vs) :
    ∃ s', run (some s) ops = .returns (some s') vs ∧ view s' = a ∧ wf s' := by
  have hsim := run_sim h ops
  rw [hf] at hsim
  obtain ⟨q, hq, hv⟩ := maps_eq_returns hsim
  obtain ⟨s', hs', hw⟩ := run_wf h ops _ vs hq
  subst hs'
  exact ⟨s', hq, by simpa using hv, hw⟩

theorem fifo_run_append {a a1 a2 : fifo} {o1 o2 : List Op} {v1 v2 : List Ret}
    (h1 : fifo_run a o1 = .returns a1 v1) (h2 : fifo_run a1 o2 = .returns a2 v2) :
    fifo_run a (o1 ++ o2) = .returns a2 (v1 ++ v2) := by
  induction o1 generalizing a v1 with
  | nil =>
    simp only [fifo_run, Outcome.returns.injEq] at h1
    obtain ⟨ha, hv⟩ := h1
    subst ha hv
    simpa using h2
  | cons o os ih =>
    simp only [fifo_run] at h1
    simp only [List.cons_append, fifo_run]
    cases hc : fifo_call a o with
    | waits => simp [hc] at h1
    | fault => simp [hc] at h1
    | returns b w =>
      simp only [hc] at h1 ⊢
      cases hr : fifo_run b os with
      | waits => simp [hr, Outcome.mapv] at h1
      | fault => simp [hr, Outcome.mapv] at h1
      | returns b1 w1 =>
        simp only [hr, Outcome.mapv, Outcome.returns.injEq] at h1
        obtain ⟨hb, hv⟩ := h1
        subst hb hv
        change Outcome.mapv _ (fifo_run b (os ++ o2)) = _
        rw [ih hr]
        simp [Outcome.mapv]

theorem fifo_enq_batch (cap : Int) (items l : List Ptr)
    (hn : ((l.length + items.length : Nat) : Int) ≤ cap) :
    fifo_run { cap := cap, items := l, closed := false } (items.map Op.enq) =
      .returns { cap := cap, items := l ++ items, closed := false }
        (List.replicate items.length Ret.unit) := by
  induction items generalizing l with
  | nil => simp [fifo_run]
  | cons x xs ih =>
    have hne : ¬ ((l.length : Int) = cap) := by
      simp only [List.length_cons] at hn
      omega
    have h2 := ih (l ++ [x]) (by
      simp only [List.length_append, List.length_cons, List.length_nil] at hn ⊢
      omega)
    simp only [List.map_cons, fifo_run, fifo_call, hne, if_false, Bool.false_eq_true]
    rw [h2]
    simp [Outcome.mapv, List.replicate_succ]

theorem fifo_deq_all (cap : Int) (items : List Ptr) (closed : Bool) :
    fifo_run { cap := cap, items := items, closed := closed }
        (List.replicate items.length Op.deq) =
      .returns { cap := cap, items := [], closed := closed } (items.map Ret.ptr) := by
  induction items with
  | nil => simp [fifo_run]
  | cons x xs ih =>
    simp only [List.length_cons, List.replicate_succ, fifo_run, fifo_call]
    rw [ih]
    simp [Outcome.mapv]

/-- The wraparound scenario of the test suite: capacity 3, enqueue 1, 2, 3,
dequeue gives 1, enqueue 4, dequeue gives 2, 3, 4, and the queue is empty,
whatever the fresh buffer held. -/
theorem wraparound_scenario (junk : Nat → Ptr) :
    (run (queue_init 3 (heap_ok junk))
        [.enq 1, .enq 2, .enq 3, .deq, .enq 4, .deq, .deq, .deq, .empty]).maps
        (Option.map view) =
      .returns (some { cap := 3, items := [], closed := false })
        [.unit, .unit, .unit, .ptr 1, .unit, .ptr 2, .ptr 3, .ptr 4, .bool true] := by
  rw [queue_init_eq, run_sim (wf_init 3 junk), view_init]
  decide

/-! ## Claims -/

/-- C1: FIFO under any interleaving, including wraparound.  For every requested
capacity `c`, every initial buffer contents and every sequence `ops` of atomic
calls, the code started at `queue_init c` and the list queue of the
specification started empty end the same way: the same call waits, none
faults, the same values are returned, and the list `contents` of the final
state (`buf[head]`, `buf[(head+1) mod capacity]`, ..., `count` items) is the
list of the specification.  Moreover in every state reached by calls that
returned, an accepted enqueue of `x` returns and appends `x` at the end of
`contents`, and a dequeue on a non-empty queue returns the first element of
`contents` and removes it. -/
theorem fifo_order_any_interleaving (c : Int) (junk : Nat → Ptr) (ops : List Op) :
    (run (queue_init c (heap_ok junk)) ops).maps (Option.map view)
        = (fifo_run (fifo_init c) ops).maps some ∧
    ∀ s vs, run (queue_init c (heap_ok junk)) ops = .returns (some s) vs →
      (∀ x, s.shutdown = false → s.count < s.capacity →
        ∃ s', enqueue (some s) x = .returns (some s') () ∧
          contents s' = contents s ++ [x]) ∧
      (0 < s.count →
        ∃ s' v, dequeue (some s) = .returns (some s') v ∧
          contents s = v :: contents s') := by
  constructor
  · rw [queue_init_eq, run_sim (wf_init c junk), view_init]
  · intro s vs hr
    have hw : wf s := reachable_wf ⟨ops, vs, hr⟩
    exact ⟨fun x hs hc => ⟨stored s x, enqueue_stores hw hs hc x, contents_stored hw hc x⟩,
      fun hc => ⟨taken s, _, dequeue_takes hw hc, contents_taken hw hc⟩⟩

/-- C1 at capacity 3 after `enqueue 1, 2, 3; dequeue; enqueue 4`: the ring has
wrapped (`head = tail = 1`, buffer `[4, 2, 3]`) and the next dequeue takes the
first element of `contents`. -/
theorem fifo_order_any_interleaving_witness :
    ∃ s' v, dequeue (some { buf := [4, 2, 3], capacity := 3, head := 1, tail := 1,
                            count := 3, shutdown := false }) = .returns (some s') v ∧
      contents { buf := [4, 2, 3], capacity := 3, head := 1, tail := 1,
                 count := 3, shutdown := false } = v :: contents s' :=
  ((fifo_order_any_interleaving 3 (fun _ => 0)
      [.enq 1, .enq 2, .enq 3, .deq, .enq 4]).2 _ [.unit, .unit, .unit, .ptr 1, .unit]
      (by decide)).2 (by decide)

/-- C2: FIFO property for a batch.  For every capacity `k >= 1` and every list
of `n <= k` items, enqueueing the items in order on `queue_init k` and then
calling dequeue `n` times returns (no call waits or faults), the dequeues
return exactly the items in the order enqueued, and the queue is left empty
(`count = 0`, `is_empty` returns true). -/
theorem fifo_batch (k : Int) (junk : Nat → Ptr) (items : List Ptr) (hk : 1 ≤ k)
    (hn : (items.length : Int) ≤ k) :
    ∃ s, run (queue_init k (heap_ok junk))
          (items.map Op.enq ++ List.replicate items.length Op.deq) =
        .returns (some s) (List.replicate items.length Ret.unit ++ items.map Ret.ptr) ∧
      s.count = 0 ∧ is_empty (some s) = .returns (some s) true := by
  have hm : max k 1 = k := max_eq_left hk
  have hf : fifo_run (fifo_init k) (items.map Op.enq ++ List.replicate items.length Op.deq) =
      .returns { cap := k, items := [], closed := false }
        (List.replicate items.length Ret.unit ++ items.map Ret.ptr) := by
    have h1 : fifo_run (fifo_init k) (items.map Op.enq) =
        .returns { cap := k, items := items, closed := false }
          (List.replicate items.length Ret.unit) := by
      have := fifo_enq_batch k items [] (by simpa using hn)
      simpa [fifo_init, hm] using this
    exact fifo_run_append h1 (fifo_deq_all k items false)
  rw [← view_init k junk] at hf
  obtain ⟨s, hr, hv, hw⟩ := run_of_fifo_run (wf_init k junk) hf
  rw [← queue_init_eq] at hr
  have hcnt : s.count = 0 := by
    have hl := contents_length s
    have hi : contents s = [] := congrArg fifo.items hv
    rw [hi] at hl
    have := hw.2.2.2.2.1
    simp at hl
    omega
  exact ⟨s, hr, hcnt, by simp [is_empty, hcnt]⟩

/-- C2 at capacity 3 with the items 7, 8, 9. -/
theorem fifo_batch_witness :
    ∃ s, run (queue_init 3 (heap_ok (fun _ => 0)))
          ([7, 8, 9].map Op.enq ++ List.replicate [7, 8, 9].length Op.deq) =
        .returns (some s) (List.replicate [7, 8, 9].length Ret.unit ++ [7, 8, 9].map Ret.ptr) ∧
      s.count = 0 ∧ is_empty (some s) = .returns (some s) true :=
  fifo_batch 3 (fun _ => 0) [7, 8, 9] (by decide) (by decide)

/-- From a run of the code to the run of the specification. -/
theorem fifo_run_of_run {s : queue} (h : wf s) {ops : List Op} {q : queue_t}
    {vs : List Ret} (hr : run (some s) ops = .returns q vs) :
    ∃ s', q = some s' ∧ wf s' ∧ fifo_run (view s) ops = .returns (view s') vs := by
  obtain ⟨s', hs', hw⟩ := run_wf h ops q vs hr
  subst hs'
  have hsim := run_sim h ops
  rw [hr] at hsim
  obtain ⟨a, ha, hv⟩ := maps_eq_returns hsim.symm
  simp only [Outcome.maps, Option.map_some', Option.some.injEq] at hv
  subst hv
  exact ⟨s', rfl, hw, ha⟩

/-- On a shut-down specification queue every sequence of calls returns, the
queue stays shut down, no item is added, and every pointer a dequeue returns
is the empty-marker or one of the items held at the start. -/
theorem fifo_closed_run (ops : List Op) (a : fifo) (hc : a.closed = true) :
    ∃ a' vs, fifo_run a ops = .returns a' vs ∧ a'.closed = true ∧
      (∀ x, x ∈ a'.items → x ∈ a.items) ∧
      ∀ p, Ret.ptr p ∈ vs → p = NULL ∨ p ∈ a.items := by
  induction ops generalizing a with
  | nil => exact ⟨a, [], rfl, hc, fun _ h => h, fun p h => by simp at h⟩
  | cons o os ih =>
    cases o with
    | enq x =>
      obtain ⟨a', vs, hr, h1, h2, h3⟩ := ih a hc
      refine ⟨a', .unit :: vs, by simp [fifo_run, fifo_call, hc, hr, Outcome.mapv], h1, h2, ?_⟩
      intro p hp
      simp only [List.mem_cons] at hp
      rcases hp with hp | hp
      · cases hp
      · exact h3 p hp
    | deq =>
      cases hi : a.items with
      | nil =>
        obtain ⟨a', vs, hr, h1, h2, h3⟩ := ih a hc
        refine ⟨a', .ptr NULL :: vs, by simp [fifo_run, fifo_call, hc, hi, hr, Outcome.mapv],
          h1, by simpa [hi] using h2, ?_⟩
        intro p hp
        simp only [List.mem_cons] at hp
        rcases hp with hp | hp
        · left; cases hp; rfl
        · have := h3 p hp
          simpa [hi] using this
      | cons y rest =>
        obtain ⟨a', vs, hr, h1, h2, h3⟩ := ih { a with items := rest } hc
        refine ⟨a', .ptr y :: vs, by simp [fifo_run, fifo_call, hi, hr, Outcome.mapv],
          h1, fun x hx => List.mem_cons_of_mem _ (h2 x hx), ?_⟩
        intro p hp
        simp only [List.mem_cons] at hp
        rcases hp with hp | hp
        · right; cases hp; simp
        · rcases h3 p hp with h | h
          · exact Or.inl h
          · exact Or.inr (List.mem_cons_of_mem _ h)
    | shut =>
      obtain ⟨a', vs, hr, h1, h2, h3⟩ := ih { a with closed := true } rfl
      refine ⟨a', .unit :: vs, by simp [fifo_run, fifo_call, hr, Outcome.mapv], h1, h2, ?_⟩
      intro p hp
      simp only [List.mem_cons] at hp
      rcases hp with hp | hp
      · cases hp
      · exact h3 p hp
    | empty =>
      obtain ⟨a', vs, hr, h1, h2, h3⟩ := ih a hc
      refine ⟨a', .bool a.items.isEmpty :: vs, by simp [fifo_run, fifo_call, hr, Outcome.mapv],
        h1, h2, ?_⟩
      intro p hp
      simp only [List.mem_cons] at hp
      rcases hp with hp | hp
      · cases hp
      · exact h3 p hp
    | isshut =>
      obtain ⟨a', vs, hr, h1, h2, h3⟩ := ih a hc
      refine ⟨a', .bool a.closed :: vs, by simp [fifo_run, fifo_call, hr, Outcome.mapv],
        h1, h2, ?_⟩
      intro p hp
      simp only [List.mem_cons] at hp
      rcases hp with hp | hp
      · cases hp
      · exact h3 p hp

/-- C3: post-shutdown enqueue is a no-op.  For every queue state with shutdown
set, whatever its count, and every item `x`, `enqueue` returns and leaves the
whole state (buffer, head, tail, count, shutdown flag) unchanged, so every
later sequence of calls ends exactly as it would have without that enqueue.
On a well-formed such state, if `x` is a non-null handle that was not already
among the buffered items, every later sequence of calls returns and no
dequeue in it returns `x`. -/
theorem enqueue_after_shutdown_noop (s : queue) (x : Ptr) (hs : s.shutdown = true) :
    enqueue (some s) x = .returns (some s) () ∧
    (∀ ops, run (some s) (Op.enq x :: ops) =
      (run (some s) ops).mapv (fun vs => Ret.unit :: vs)) ∧
    (wf s → x ≠ NULL → x ∉ contents s →
      ∀ ops, ∃ s' vs, run (some s) (Op.enq x :: ops) = .returns (some s') vs ∧
        Ret.ptr x ∉ vs) := by
  have he : enqueue (some s) x = .returns (some s) () := by simp [enqueue, hs]
  have hrun : ∀ ops, run (some s) (Op.enq x :: ops) =
      (run (some s) ops).mapv (fun vs => Ret.unit :: vs) := by
    intro ops
    simp [run, call, he, Outcome.mapv]
  refine ⟨he, hrun, ?_⟩
  intro hw hx hnot ops
  obtain ⟨a', vs, hf, -, -, hp⟩ := fifo_closed_run ops (view s) hs
  obtain ⟨s', hr, -, -⟩ := run_of_fifo_run hw hf
  refine ⟨s', .unit :: vs, by rw [hrun, hr]; rfl, ?_⟩
  intro hmem
  simp only [List.mem_cons] at hmem
  rcases hmem with hmem | hmem
  · cases hmem
  · rcases hp x hmem with h | h
    · exact hx h
    · exact hnot h

/-- C3 on the state left by `queue_init(4); queue_shutdown` (fields in the
order buf, capacity, head, tail, count, shutdown), with `x = 3`. -/
theorem enqueue_after_shutdown_noop_witness :
    enqueue (some ⟨[0, 0, 0, 0], 4, 0, 0, 0, true⟩) 3 =
      .returns (some ⟨[0, 0, 0, 0], 4, 0, 0, 0, true⟩) () ∧
    ∃ s' vs, run (some ⟨[0, 0, 0, 0], 4, 0, 0, 0, true⟩) [Op.enq 3, Op.empty, Op.deq] =
        .returns (some s') vs ∧ Ret.ptr 3 ∉ vs :=
  ⟨(enqueue_after_shutdown_noop _ 3 rfl).1,
   (enqueue_after_shutdown_noop _ 3 rfl).2.2 (by decide) (by decide) (by decide)
     [Op.empty, Op.deq]⟩

/-- The scenario of the test suite: `queue_init(4)`, `queue_shutdown`,
`enqueue(&v)`; then `is_empty` is still true and `dequeue` returns `NULL`. -/
theorem shutdown_then_enqueue_scenario :
    run (queue_init 4 (heap_ok (fun _ => 0))) [.shut, .enq 3, .empty, .deq] =
      .returns (some ⟨[0, 0, 0, 0], 4, 0, 0, 0, true⟩)
        [.unit, .unit, .bool true, .ptr NULL] := by
  decide

/-- C4: dequeue on a shut-down, drained queue.  For every queue state with
shutdown set and `count = 0`, `dequeue` does not wait, returns the empty-marker
`NULL`, and leaves the whole state (head, tail, count, buffer, shutdown flag)
unchanged. -/
theorem dequeue_drained_returns_null (s : queue) (hs : s.shutdown = true)
    (hc : s.count = 0) : dequeue (some s) = .returns (some s) NULL := by
  simp [dequeue, hs, hc]

/-- C4 on a shut-down empty queue of capacity 2 with `head = tail = 1`. -/
theorem dequeue_drained_returns_null_witness :
    dequeue (some ⟨[7, 8], 2, 1, 1, 0, true⟩) =
      .returns (some ⟨[7, 8], 2, 1, 1, 0, true⟩) NULL :=
  dequeue_drained_returns_null _ rfl rfl

theorem count_zero_of_contents_nil {s : queue} (h : wf s) (hn : contents s = []) :
    s.count = 0 := by
  have hl := contents_length s
  rw [hn] at hl
  have := h.2.2.2.2.1
  simp at hl
  omega

/-- C5: shutdown keeps buffered items and they drain in order.  For every
state reachable from `queue_init c` that holds the items `contents s` (oldest
first, `n` of them), `queue_shutdown` returns and changes only the shutdown
flag (buffer, head, tail, count, capacity unchanged); the next `n` dequeues
then return those items in that order without waiting, the `(n+1)`-th dequeue
returns the empty-marker `NULL`, and the queue is left empty and shut down. -/
theorem shutdown_keeps_items (c : Int) (junk : Nat → Ptr) (s : queue)
    (h : Reachable c junk s) :
    queue_shutdown (some s) = .returns (some { s with shutdown := true }) () ∧
    ∃ s', run (some { s with shutdown := true })
          (List.replicate (contents s).length Op.deq ++ [Op.deq]) =
        .returns (some s') ((contents s).map Ret.ptr ++ [Ret.ptr NULL]) ∧
      s'.count = 0 ∧ s'.shutdown = true := by
  have hw : wf s := reachable_wf h
  have hw2 : wf { s with shutdown := true } := hw
  refine ⟨rfl, ?_⟩
  have hv : view { s with shutdown := true } =
      { cap := s.capacity, items := contents s, closed := true } := rfl
  have h1 := fifo_deq_all s.capacity (contents s) true
  have h2 : fifo_run { cap := s.capacity, items := [], closed := true } [Op.deq] =
      .returns { cap := s.capacity, items := [], closed := true } [Ret.ptr NULL] := by
    simp [fifo_run, fifo_call, Outcome.mapv]
  have h3 := fifo_run_append h1 h2
  rw [← hv] at h3
  obtain ⟨s', hr, hv', hw'⟩ := run_of_fifo_run hw2 h3
  refine ⟨s', hr, count_zero_of_contents_nil hw' (congrArg fifo.items hv'), ?_⟩
  exact congrArg fifo.closed hv'

/-- C5 on the wrapped state reached at capacity 3 by `enqueue 1, 2, 3; dequeue;
enqueue 4` (buffer `[4, 2, 3]`, `head = tail = 1`, holding 2, 3, 4): shutdown
only sets the flag, three dequeues return 2, 3, 4 and the fourth returns
`NULL`. -/
theorem shutdown_keeps_items_witness :
    queue_shutdown (some ⟨[4, 2, 3], 3, 1, 1, 3, false⟩) =
      .returns (some ⟨[4, 2, 3], 3, 1, 1, 3, true⟩) () ∧
    ∃ s', run (some ⟨[4, 2, 3], 3, 1, 1, 3, true⟩) [Op.deq, Op.deq, Op.deq, Op.deq] =
        .returns (some s') [Ret.ptr 2, Ret.ptr 3, Ret.ptr 4, Ret.ptr NULL] ∧
      s'.count = 0 ∧ s'.shutdown = true :=
  shutdown_keeps_items 3 (fun _ => 0) ⟨[4, 2, 3], 3, 1, 1, 3, false⟩
    ⟨[.enq 1, .enq 2, .enq 3, .deq, .enq 4], [.unit, .unit, .unit, .ptr 1, .unit], by decide⟩

/-- One call of the specification adds no item but the one it enqueues. -/
theorem fifo_call_items {a b : fifo} {o : Op} {w : Ret} (h : fifo_call a o = .returns b w) :
    ∀ x, x ∈ b.items → x ∈ a.items ∨ o = Op.enq x := by
  intro x hx
  cases o with
  | enq y =>
    simp only [fifo_call] at h
    split at h
    · simp only [Outcome.returns.injEq] at h
      rw [← h.1] at hx
      exact Or.inl hx
    · split at h
      · cases h
      · simp only [Outcome.returns.injEq] at h
        rw [← h.1] at hx
        simp only [List.mem_append, List.mem_singleton] at hx
        rcases hx with hx | hx
        · exact Or.inl hx
        · exact Or.inr (by rw [hx])
  | deq =>
    simp only [fifo_call] at h
    split at h
    · split at h
      · simp only [Outcome.returns.injEq] at h
        rw [← h.1] at hx
        exact Or.inl hx
      · cases h
    · next y rest hi =>
      simp only [Outcome.returns.injEq] at h
      rw [← h.1] at hx
      left
      rw [hi]
      exact List.mem_cons_of_mem _ hx
  | shut =>
    simp only [fifo_call, Outcome.returns.injEq] at h
    rw [← h.1] at hx
    exact Or.inl hx
  | empty =>
    simp only [fifo_call, Outcome.returns.injEq] at h
    rw [← h.1] at hx
    exact Or.inl hx
  | isshut =>
    simp only [fifo_call, Outcome.returns.injEq] at h
    rw [← h.1] at hx
    exact Or.inl hx

/-- Every item the specification queue holds after a sequence of calls was
held at the start or enqueued by one of the calls. -/
theorem fifo_run_items {ops : List Op} {a a' : fifo} {vs : List Ret}
    (h : fifo_run a ops = .returns a' vs) :
    ∀ x, x ∈ a'.items → x ∈ a.items ∨ Op.enq x ∈ ops := by
  induction ops generalizing a vs with
  | nil =>
    simp only [fifo_run, Outcome.returns.injEq] at h
    intro x hx
    rw [← h.1] at hx
    exact Or.inl hx
  | cons o os ih =>
    simp only [fifo_run] at h
    cases hc : fifo_call a o with
    | waits => simp [hc] at h
    | fault => simp [hc] at h
    | returns b w =>
      simp only [hc] at h
      cases hr : fifo_run b os with
      | waits => simp [hr, Outcome.mapv] at h
      | fault => simp [hr, Outcome.mapv] at h
      | returns b1 w1 =>
        simp only [hr, Outcome.mapv, Outcome.returns.injEq] at h
        obtain ⟨hb, -⟩ := h
        subst hb
        intro x hx
        rcases ih hr x hx with h1 | h1
        · rcases fifo_call_items hc x h1 with h2 | h2
          · exact Or.inl h2
          · exact Or.inr (by rw [h2]; exact List.mem_cons_self _ _)
        · exact Or.inr (List.mem_cons_of_mem _ h1)

/-- Every item held in a state reached from `queue_init` was enqueued by one of
the calls that led there. -/
theorem contents_enqueued {c : Int} {junk : Nat → Ptr} {ops : List Op} {s : queue}
    {vs : List Ret} (hr : run (queue_init c (heap_ok junk)) ops = .returns (some s) vs) :
    ∀ x, x ∈ contents s → Op.enq x ∈ ops := by
  rw [queue_init_eq] at hr
  obtain ⟨s', hs', -, hf⟩ := fifo_run_of_run (wf_init c junk) hr
  cases hs'
  intro x hx
  rcases fifo_run_items hf x hx with h | h
  · rw [view_init] at h
    simp [fifo_init] at h
  · exact h

/-- C6 fails as stated: `enqueue` accepts the null handle as an item.  On
`queue_init(1)` after `enqueue(q, NULL)` the queue is active with `count = 1`,
and `dequeue` returns `NULL` although shutdown is not set and `count` is not
0. -/
theorem spurious_null_counterexample :
    run (queue_init 1 (heap_ok (fun _ => 7))) [Op.enq NULL] =
      .returns (some ⟨[NULL], 1, 0, 0, 1, false⟩) [Ret.unit] ∧
    dequeue (some ⟨[NULL], 1, 0, 0, 1, false⟩) =
      .returns (some ⟨[NULL], 1, 0, 0, 0, false⟩) NULL ∧
    ¬ ((⟨[NULL], 1, 0, 0, 1, false⟩ : queue).shutdown = true ∧
       (⟨[NULL], 1, 0, 0, 1, false⟩ : queue).count = 0) := by
  decide

/-- C6, amended: in every state reached from `queue_init c` by a sequence `ops`
of calls that returned, `dequeue` does not fault, and whenever it returns a
value `v`, either `v` is the empty-marker `NULL` returned with shutdown set
and `count = 0`, or the queue was non-empty and `v` is an item that an earlier
`enqueue` of `ops` stored.  So `NULL` is returned outside the shut-down and
drained condition only when `NULL` itself was enqueued: if no enqueued handle
is `NULL`, a dequeue that returns `NULL` had shutdown set and `count = 0`. -/
theorem dequeue_marker_or_item (c : Int) (junk : Nat → Ptr) (ops : List Op) (s : queue)
    (vs : List Ret) (hr : run (queue_init c (heap_ok junk)) ops = .returns (some s) vs) :
    dequeue (some s) ≠ .fault ∧
    (∀ q v, dequeue (some s) = .returns q v →
      (v = NULL ∧ s.shutdown = true ∧ s.count = 0) ∨ (0 < s.count ∧ Op.enq v ∈ ops)) ∧
    ((∀ x, Op.enq x ∈ ops → x ≠ NULL) →
      ∀ q, dequeue (some s) = .returns q NULL → s.shutdown = true ∧ s.count = 0) := by
  have hw : wf s := reachable_wf ⟨ops, vs, hr⟩
  have key : ∀ q v, dequeue (some s) = .returns q v →
      (v = NULL ∧ s.shutdown = true ∧ s.count = 0) ∨ (0 < s.count ∧ Op.enq v ∈ ops) := by
    intro q v hd
    by_cases hc : s.count = 0
    · left
      cases hs : s.shutdown with
      | false => simp [dequeue, hs, hc] at hd
      | true =>
        simp [dequeue, hs, hc] at hd
        exact ⟨hd.2.symm, rfl, hc⟩
    · right
      have hpos : 0 < s.count := by
        have := hw.2.2.2.2.1
        omega
      rw [dequeue_takes hw hpos] at hd
      simp only [Outcome.returns.injEq] at hd
      refine ⟨hpos, contents_enqueued hr v ?_⟩
      rw [contents_taken hw hpos, hd.2]
      exact List.mem_cons_self _ _
  refine ⟨?_, key, ?_⟩
  · by_cases hc : s.count = 0
    · cases hs : s.shutdown <;> simp [dequeue, hs, hc]
    · have hpos : 0 < s.count := by
        have := hw.2.2.2.2.1
        omega
      rw [dequeue_takes hw hpos]
      simp
  · intro hnn q hd
    rcases key q NULL hd with h | h
    · exact ⟨h.2.1, h.2.2⟩
    · exact absurd rfl (hnn NULL h.2)

/-- C6 (amended) on `queue_init(1)` after `enqueue 5`: the dequeue returns 5, an
enqueued item. -/
theorem dequeue_marker_or_item_witness :
    (5 = NULL ∧ (⟨[5], 1, 0, 0, 1, false⟩ : queue).shutdown = true ∧
        (⟨[5], 1, 0, 0, 1, false⟩ : queue).count = 0) ∨
      (0 < (⟨[5], 1, 0, 0, 1, false⟩ : queue).count ∧ Op.enq 5 ∈ [Op.enq 5]) :=
  (dequeue_marker_or_item 1 (fun _ => 7) [Op.enq 5] ⟨[5], 1, 0, 0, 1, false⟩ [Ret.unit]
    (by decide)).2.1 (some ⟨[5], 1, 0, 0, 0, false⟩) 5 (by decide)

/-- C7 fails as stated on a full queue.  On `queue_init(1)` after one enqueue
the state has `count = 1` and `head = tail = 0`, so `(tail - head) mod
capacity` is 0 (with the mathematical remainder and with C's `%` alike), not
`count`. -/
theorem ring_invariant_counterexample :
    run (queue_init 1 (heap_ok (fun _ => 7))) [Op.enq 5] =
      .returns (some ⟨[5], 1, 0, 0, 1, false⟩) [Ret.unit] ∧
    (⟨[5], 1, 0, 0, 1, false⟩ : queue).count ≠
      ((⟨[5], 1, 0, 0, 1, false⟩ : queue).tail - (⟨[5], 1, 0, 0, 1, false⟩ : queue).head) %
        (⟨[5], 1, 0, 0, 1, false⟩ : queue).capacity ∧
    (⟨[5], 1, 0, 0, 1, false⟩ : queue).count ≠
      Int.tmod
        ((⟨[5], 1, 0, 0, 1, false⟩ : queue).tail - (⟨[5], 1, 0, 0, 1, false⟩ : queue).head)
        (⟨[5], 1, 0, 0, 1, false⟩ : queue).capacity := by
  decide

/-- C7, amended: in every state reachable from `queue_init c` by enqueue,
dequeue, `queue_shutdown` (and the two read-only calls), `count` and
`tail - head` are congruent modulo `capacity`:
`(tail - head) mod capacity = count mod capacity`.  Hence
`count = (tail - head) mod capacity` whenever `count < capacity`, and on a
full queue (`count = capacity`) `tail = head`. -/
theorem ring_invariant_mod (c : Int) (junk : Nat → Ptr) (s : queue)
    (h : Reachable c junk s) :
    (s.tail - s.head) % s.capacity = s.count % s.capacity ∧
    (s.count < s.capacity → s.count = (s.tail - s.head) % s.capacity) ∧
    (s.count = s.capacity → s.tail = s.head) := by
  obtain ⟨h1, h2, h3, h4, h5, h6, h7⟩ := reachable_wf h
  have hm : (s.tail - s.head) % s.capacity = s.count % s.capacity := by
    rw [h7, Int.sub_emod, Int.emod_emod_of_dvd _ (dvd_refl _), ← Int.sub_emod]
    congr 1
    ring
  refine ⟨hm, ?_, ?_⟩
  · intro hlt
    rw [hm, Int.emod_eq_of_lt h5 hlt]
  · intro he
    rw [h7, he, Int.add_emod_self, Int.emod_eq_of_lt h3 h4]

/-- C7 (amended) on the wrapped full state reached at capacity 3 by
`enqueue 1, 2, 3; dequeue; enqueue 4`. -/
theorem ring_invariant_mod_witness :
    ((⟨[4, 2, 3], 3, 1, 1, 3, false⟩ : queue).tail - (⟨[4, 2, 3], 3, 1, 1, 3, false⟩ : queue).head) %
        (⟨[4, 2, 3], 3, 1, 1, 3, false⟩ : queue).capacity =
      (⟨[4, 2, 3], 3, 1, 1, 3, false⟩ : queue).count %
        (⟨[4, 2, 3], 3, 1, 1, 3, false⟩ : queue).capacity :=
  (ring_invariant_mod 3 (fun _ => 0) ⟨[4, 2, 3], 3, 1, 1, 3, false⟩
    ⟨[.enq 1, .enq 2, .enq 3, .deq, .enq 4], [.unit, .unit, .unit, .ptr 1, .unit],
      by decide⟩).1

/-- C8: occupancy bound.  In every state reachable from `queue_init c` by
enqueue, dequeue, `queue_shutdown` (and the two read-only calls),
`0 <= count <= capacity`.  In particular when `count = capacity` an enqueue
stores nothing (it waits, or after shutdown returns leaving the state
unchanged), and when `count = 0` a dequeue does not decrement `count` (it
waits, or after shutdown returns `NULL` leaving the state unchanged). -/
theorem occupancy_bound (c : Int) (junk : Nat → Ptr) (s : queue)
    (h : Reachable c junk s) :
    0 ≤ s.count ∧ s.count ≤ s.capacity ∧
    (s.count = s.capacity → ∀ x,
      enqueue (some s) x = if s.shutdown then .returns (some s) () else .waits) ∧
    (s.count = 0 →
      dequeue (some s) = if s.shutdown then .returns (some s) NULL else .waits) := by
  obtain ⟨h1, h2, h3, h4, h5, h6, h7⟩ := reachable_wf h
  refine ⟨h5, h6, ?_, ?_⟩
  · intro hc x
    cases hs : s.shutdown <;> simp [enqueue, hs, hc]
  · intro hc
    cases hs : s.shutdown <;> simp [dequeue, hs, hc]

/-- C8 on the full queue `queue_init(1); enqueue 5`: `count` is within bounds
and a further enqueue waits. -/
theorem occupancy_bound_witness :
    0 ≤ (⟨[5], 1, 0, 0, 1, false⟩ : queue).count ∧
    (⟨[5], 1, 0, 0, 1, false⟩ : queue).count ≤ (⟨[5], 1, 0, 0, 1, false⟩ : queue).capacity ∧
    enqueue (some ⟨[5], 1, 0, 0, 1, false⟩) 6 = .waits :=
  have h := occupancy_bound 1 (fun _ => 7) ⟨[5], 1, 0, 0, 1, false⟩
    ⟨[Op.enq 5], [Ret.unit], by decide⟩
  ⟨h.1, h.2.1, h.2.2.1 rfl 6⟩

/-- One returning call on a shut-down state leaves a shut-down state. -/
theorem call_keeps_shutdown {s : queue} (hs : s.shutdown = true) {o : Op} {q : queue_t}
    {v : Ret} (h : call (some s) o = .returns q v) : ∃ s', q = some s' ∧ s'.shutdown = true := by
  cases o with
  | enq x =>
    simp [call, enqueue, hs, Outcome.mapv] at h
    exact ⟨s, h.1.symm, hs⟩
  | deq =>
    simp only [call, dequeue, hs] at h
    split at h
    · simp [Outcome.mapv] at h
    · split at h
      · simp [Outcome.mapv] at h
        exact ⟨s, h.1.symm, hs⟩
      · split at h
        · simp [Outcome.mapv] at h
        · simp [Outcome.mapv] at h
          exact ⟨_, h.1.symm, rfl⟩
  | shut =>
    simp [call, queue_shutdown, Outcome.mapv] at h
    exact ⟨_, h.1.symm, rfl⟩
  | empty =>
    simp [call, is_empty, Outcome.mapv] at h
    exact ⟨s, h.1.symm, hs⟩
  | isshut =>
    simp [call, is_shutdown, Outcome.mapv] at h
    exact ⟨s, h.1.symm, hs⟩

/-- A returning sequence of calls on a shut-down state leaves a shut-down
state. -/
theorem run_keeps_shutdown {s : queue} (hs : s.shutdown = true) {ops : List Op}
    {q : queue_t} {vs : List Ret} (h : run (some s) ops = .returns q vs) :
    ∃ s', q = some s' ∧ s'.shutdown = true := by
  induction ops generalizing s vs with
  | nil =>
    simp [run] at h
    exact ⟨s, h.1.symm, hs⟩
  | cons o os ih =>
    cases hc : call (some s) o with
    | waits => simp [run, hc] at h
    | fault => simp [run, hc] at h
    | returns q1 v =>
      obtain ⟨s1, rfl, hs1⟩ := call_keeps_shutdown hs hc
      simp only [run, hc] at h
      cases hr1 : run (some s1) os with
      | waits => simp [hr1, Outcome.mapv] at h
      | fault => simp [hr1, Outcome.mapv] at h
      | returns q2 vs2 =>
        simp [hr1, Outcome.mapv] at h
        obtain ⟨hq, -⟩ := h
        subst hq
        exact ih hs1 hr1

/-- C9: shutdown is one-way.  For every state with shutdown set, the state
after any returning `enqueue`, `dequeue`, `is_empty`, `is_shutdown` or
`queue_shutdown` call still has shutdown set; the same holds after any
sequence of such calls, and `is_shutdown` then returns true.  On a well-formed
shut-down state every sequence of calls does return (none waits or faults),
so no sequence of operations brings the queue back to the active state. -/
theorem shutdown_one_way (s : queue) (hs : s.shutdown = true) :
    (∀ o q v, call (some s) o = .returns q v → ∃ s', q = some s' ∧ s'.shutdown = true) ∧
    (∀ ops q vs, run (some s) ops = .returns q vs →
      ∃ s', q = some s' ∧ s'.shutdown = true ∧
        is_shutdown (some s') = .returns (some s') true) ∧
    (wf s → ∀ ops, ∃ s' vs, run (some s) ops = .returns (some s') vs ∧
      s'.shutdown = true) := by
  refine ⟨fun o q v h => call_keeps_shutdown hs h, ?_, ?_⟩
  · intro ops q vs h
    obtain ⟨s', hq, hs'⟩ := run_keeps_shutdown hs h
    exact ⟨s', hq, hs', by simp [is_shutdown, hs']⟩
  · intro hw ops
    obtain ⟨a', vs, hf, hc, -, -⟩ := fifo_closed_run ops (view s) hs
    obtain ⟨s', hr, hv, -⟩ := run_of_fifo_run hw hf
    refine ⟨s', vs, hr, ?_⟩
    rw [← hv] at hc
    exact hc

/-- C9 on a shut-down queue of capacity 3 that still holds three items. -/
theorem shutdown_one_way_witness :
    ∃ s' vs, run (some ⟨[4, 2, 3], 3, 1, 1, 3, true⟩)
        [Op.enq 9, Op.deq, Op.empty, Op.isshut, Op.shut, Op.deq, Op.deq, Op.deq] =
      .returns (some s') vs ∧ s'.shutdown = true :=
  (shutdown_one_way ⟨[4, 2, 3], 3, 1, 1, 3, true⟩ rfl).2.2 (by decide)
    [Op.enq 9, Op.deq, Op.empty, Op.isshut, Op.shut, Op.deq, Op.deq, Op.deq]

/-- The scenario of the test suite: `queue_init(0)`, `is_empty` true,
`enqueue(&v)`, `is_empty` false, `dequeue` gives `&v`, `is_empty` true. -/
theorem zero_capacity_scenario :
    run (queue_init 0 (heap_ok (fun _ => 7))) [.empty, .enq 42, .empty, .deq, .empty] =
      .returns (some ⟨[42], 1, 0, 0, 0, false⟩)
        [.bool true, .unit, .bool false, .ptr 42, .bool true] := by
  decide

/-- C10: initialisation and capacity coercion.  For every integer `c`, when
both allocations succeed `queue_init c` yields a queue with `max(c, 1)` slots,
`capacity = max(c, 1)`, `count = 0`, `head = tail = 0` and shutdown false.
`queue_init 0` and `queue_init (-5)` build the same state as `queue_init 1` on
the same heap, and whatever the fresh buffers hold, every sequence of calls
ends the same way on all three: the same call waits, the same values are
returned, and the same items remain. -/
theorem init_coercion (c : Int) (junk : Nat → Ptr) :
    queue_init c (heap_ok junk) =
      some { buf := (List.range (max c 1).toNat).map junk, capacity := max c 1,
             head := 0, tail := 0, count := 0, shutdown := false } ∧
    (∀ m, queue_init 0 m = queue_init 1 m ∧ queue_init (-5) m = queue_init 1 m) ∧
    (∀ ops junk0 junk1 junk5,
      (run (queue_init 0 (heap_ok junk0)) ops).maps (Option.map view) =
        (run (queue_init 1 (heap_ok junk1)) ops).maps (Option.map view) ∧
      (run (queue_init (-5) (heap_ok junk5)) ops).maps (Option.map view) =
        (run (queue_init 1 (heap_ok junk1)) ops).maps (Option.map view)) := by
  refine ⟨queue_init_eq c junk, ?_, ?_⟩
  · intro m
    constructor <;> rfl
  · intro ops junk0 junk1 junk5
    have h0 := run_sim (wf_init 0 junk0) ops
    have h1 := run_sim (wf_init 1 junk1) ops
    have h5 := run_sim (wf_init (-5) junk5) ops
    rw [view_init, ← queue_init_eq] at h0 h1 h5
    have e0 : fifo_init 0 = fifo_init 1 := by decide
    have e5 : fifo_init (-5) = fifo_init 1 := by decide
    rw [e0] at h0
    rw [e5] at h5
    exact ⟨h0.trans h1.symm, h5.trans h1.symm⟩

/-- `enqueue` waits exactly when the queue is active and `count = capacity`. -/
theorem enqueue_waits_iff (t : queue) (x : Ptr) :
    enqueue (some t) x = .waits ↔ (t.shutdown = false ∧ t.count = t.capacity) := by
  cases hs : t.shutdown with
  | true => simp [enqueue, hs]
  | false =>
    by_cases hc : t.count = t.capacity
    · simp [enqueue, hs, hc]
    · simp only [enqueue, hs, hc]
      simp only [Bool.not_false, Bool.true_and, beq_iff_eq, hc, if_false, if_true,
        false_and, and_false, iff_false]
      split <;> simp

/-- `dequeue` waits exactly when the queue is active and `count = 0`. -/
theorem dequeue_waits_iff (t : queue) :
    dequeue (some t) = .waits ↔ (t.shutdown = false ∧ t.count = 0) := by
  cases hs : t.shutdown with
  | true =>
    by_cases hc : t.count = 0
    · simp [dequeue, hs, hc]
    · simp only [dequeue, hs, hc]
      simp only [Bool.not_true, Bool.false_and, Bool.and_true, beq_iff_eq, hc, if_false,
        false_and, and_false, iff_false, Bool.false_eq_true]
      split <;> simp
  | false =>
    by_cases hc : t.count = 0
    · simp [dequeue, hs, hc]
    · simp only [dequeue, hs, hc]
      simp only [Bool.not_false, Bool.true_and, Bool.and_false, beq_iff_eq, hc, if_false,
        false_and, and_false, iff_false, Bool.false_eq_true]
      split <;> simp

/-- The state after `k` enqueues on `queue_init k`. -/
theorem run_fill {k : Int} (junk : Nat → Ptr) {items : List Ptr} (hk : 1 ≤ k)
    (hn : (items.length : Int) = k) :
    ∃ s, run (queue_init k (heap_ok junk)) (items.map Op.enq) =
        .returns (some s) (List.replicate items.length Ret.unit) ∧
      wf s ∧ contents s = items ∧ s.count = s.capacity ∧ s.capacity = k ∧
      s.shutdown = false := by
  have hm : max k 1 = k := max_eq_left hk
  have h1 : fifo_run (fifo_init k) (items.map Op.enq) =
      .returns { cap := k, items := items, closed := false }
        (List.replicate items.length Ret.unit) := by
    have := fifo_enq_batch k items [] (by simp [hn])
    simpa [fifo_init, hm] using this
  rw [← view_init k junk] at h1
  obtain ⟨s, hr, hv, hw⟩ := run_of_fifo_run (wf_init k junk) h1
  rw [← queue_init_eq] at hr
  have hcap : s.capacity = k := congrArg fifo.cap hv
  have hi : contents s = items := congrArg fifo.items hv
  have hcl : s.shutdown = false := congrArg fifo.closed hv
  have hcnt : s.count = s.capacity := by
    have hl := contents_length s
    rw [hi] at hl
    have := hw.2.2.2.2.1
    omega
  exact ⟨s, hr, hw, hi, hcnt, hcap, hcl⟩

/-- C11: bounded capacity.  For every `k >= 1`, the `k` enqueues of `k` items on
`queue_init k` (no dequeue, no shutdown) all return and leave a full, active
queue; there every further enqueue waits (its wait condition holds and
nothing is stored, the outcome `waits` leaves the state as it is).  After one
dequeue the wait condition of the enqueue is false and the enqueue stores its
item at the end of the contents.  In general, on every state, `enqueue` waits
exactly when `count = capacity` and the queue is not shut down. -/
theorem bounded_capacity (k : Int) (junk : Nat → Ptr) (items : List Ptr) (hk : 1 ≤ k)
    (hn : (items.length : Int) = k) :
    (∃ s, run (queue_init k (heap_ok junk)) (items.map Op.enq) =
        .returns (some s) (List.replicate items.length Ret.unit) ∧
      s.count = s.capacity ∧ s.shutdown = false ∧ contents s = items ∧
      (∀ x, enqueue (some s) x = .waits) ∧
      ∃ s1 v, dequeue (some s) = .returns (some s1) v ∧
        ∀ x, enqueue (some s1) x ≠ .waits ∧
          ∃ s2, enqueue (some s1) x = .returns (some s2) () ∧
            contents s2 = contents s1 ++ [x]) ∧
    ∀ (t : queue) (x : Ptr),
      enqueue (some t) x = .waits ↔ (t.count = t.capacity ∧ t.shutdown = false) := by
  constructor
  · obtain ⟨s, hr, hw, hi, hcnt, hcap, hcl⟩ := run_fill junk hk hn
    refine ⟨s, hr, hcnt, hcl, hi, fun x => (enqueue_waits_iff s x).mpr ⟨hcl, hcnt⟩, ?_⟩
    have hpos : 0 < s.count := by omega
    have hw1 := wf_taken hw hpos
    have hlt : (taken s).count < (taken s).capacity := by
      show s.count - 1 < s.capacity
      omega
    refine ⟨taken s, _, dequeue_takes hw hpos, fun x => ?_⟩
    have he := enqueue_stores hw1 hcl hlt x
    refine ⟨by rw [he]; simp, stored (taken s) x, he, contents_stored hw1 hlt x⟩
  · intro t x
    rw [enqueue_waits_iff]
    exact and_comm

/-- C11 at capacity 2 with the items 7, 8. -/
theorem bounded_capacity_witness :
    ∃ s, run (queue_init 2 (heap_ok (fun _ => 0))) ([7, 8].map Op.enq) =
        .returns (some s) (List.replicate [7, 8].length Ret.unit) ∧
      s.count = s.capacity ∧ s.shutdown = false ∧ contents s = [7, 8] ∧
      (∀ x, enqueue (some s) x = .waits) ∧
      ∃ s1 v, dequeue (some s) = .returns (some s1) v ∧
        ∀ x, enqueue (some s1) x ≠ .waits ∧
          ∃ s2, enqueue (some s1) x = .returns (some s2) () ∧
            contents s2 = contents s1 ++ [x] :=
  (bounded_capacity 2 (fun _ => 0) [7, 8] (by decide) (by decide)).1

/-- The scenario of the test suite at capacity 1: after `enqueue a` a second
enqueue waits; after `dequeue` (which gives `a`) the enqueue of `b` goes
through, and `dequeue` gives `b`, leaving the queue empty. -/
theorem blocked_enqueue_scenario :
    run (queue_init 1 (heap_ok (fun _ => 0))) [.enq 1, .enq 2] = .waits ∧
    run (queue_init 1 (heap_ok (fun _ => 0))) [.enq 1, .deq, .enq 2, .deq, .empty] =
      .returns (some ⟨[2], 1, 0, 0, 0, false⟩)
        [.unit, .ptr 1, .unit, .ptr 2, .bool true] := by
  decide

/-- C12: wake-on-shutdown.  For every state in which `dequeue` waits (empty and
active), once `queue_shutdown` has been applied the same dequeue no longer
waits and returns the empty-marker `NULL`.  For every state in which an
`enqueue` waits (full and active), once `queue_shutdown` has been applied the
same enqueue no longer waits and returns without storing its item (buffer,
head, tail and count are those from before the shutdown); if the state is
well-formed, the dequeues after it return exactly the items buffered before,
in order, and then `NULL`.  In no shut-down state does the wait condition of
`enqueue` or of `dequeue` hold. -/
theorem wake_on_shutdown (s : queue) :
    (dequeue (some s) = .waits →
      ∃ s1, queue_shutdown (some s) = .returns (some s1) () ∧
        dequeue (some s1) = .returns (some s1) NULL) ∧
    (∀ x, enqueue (some s) x = .waits →
      ∃ s1, queue_shutdown (some s) = .returns (some s1) () ∧
        enqueue (some s1) x = .returns (some s1) () ∧
        s1.buf = s.buf ∧ s1.head = s.head ∧ s1.tail = s.tail ∧ s1.count = s.count) ∧
    (∀ x, enqueue (some s) x = .waits → wf s →
      ∃ s1 s2, queue_shutdown (some s) = .returns (some s1) () ∧
        run (some s1) (Op.enq x :: (List.replicate (contents s).length Op.deq ++ [Op.deq])) =
          .returns (some s2) (Ret.unit :: ((contents s).map Ret.ptr ++ [Ret.ptr NULL]))) ∧
    (s.shutdown = true → (∀ x, enqueue (some s) x ≠ .waits) ∧ dequeue (some s) ≠ .waits) := by
  refine ⟨?_, ?_, ?_, ?_⟩
  · intro hd
    obtain ⟨-, hc⟩ := (dequeue_waits_iff s).mp hd
    exact ⟨{ s with shutdown := true }, rfl, by simp [dequeue, hc]⟩
  · intro x _
    exact ⟨{ s with shutdown := true }, rfl, by simp [enqueue], rfl, rfl, rfl, rfl⟩
  · intro x _ hw
    have hw1 : wf { s with shutdown := true } := hw
    have h1 := fifo_deq_all s.capacity (contents s) true
    have h2 : fifo_run { cap := s.capacity, items := [], closed := true } [Op.deq] =
        .returns { cap := s.capacity, items := [], closed := true } [Ret.ptr NULL] := by
      simp [fifo_run, fifo_call, Outcome.mapv]
    have h3 := fifo_run_append h1 h2
    have hv : view { s with shutdown := true } =
        { cap := s.capacity, items := contents s, closed := true } := rfl
    rw [← hv] at h3
    obtain ⟨s2, hr, -, -⟩ := run_of_fifo_run hw1 h3
    refine ⟨{ s with shutdown := true }, s2, rfl, ?_⟩
    have he : enqueue (some { s with shutdown := true }) x =
        .returns (some { s with shutdown := true }) () := by simp [enqueue]
    simp only [run, call, he, Outcome.mapv]
    rw [hr]
  · intro hs
    constructor
    · intro x hx
      have := ((enqueue_waits_iff s x).mp hx).1
      rw [hs] at this
      cases this
    · intro hd
      have := ((dequeue_waits_iff s).mp hd).1
      rw [hs] at this
      cases this

/-- C12 on an empty active queue of capacity 2 (a dequeue waits) and on a full
active queue of capacity 1 holding 5 (an enqueue of 6 waits). -/
theorem wake_on_shutdown_witness :
    (∃ s1, queue_shutdown (some ⟨[0, 0], 2, 0, 0, 0, false⟩) = .returns (some s1) () ∧
        dequeue (some s1) = .returns (some s1) NULL) ∧
    (∃ s1 s2, queue_shutdown (some ⟨[5], 1, 0, 0, 1, false⟩) = .returns (some s1) () ∧
        run (some s1) [Op.enq 6, Op.deq, Op.deq] =
          .returns (some s2) [Ret.unit, Ret.ptr 5, Ret.ptr NULL]) :=
  ⟨(wake_on_shutdown ⟨[0, 0], 2, 0, 0, 0, false⟩).1 (by decide),
   (wake_on_shutdown ⟨[5], 1, 0, 0, 1, false⟩).2.2.1 6 (by decide) (by decide)⟩

/-- The two scenarios of the test suite: a dequeue waits on the empty
`queue_init(2)` and returns `NULL` once shut down; the second enqueue waits on
the full `queue_init(1)`, and once shut down it returns without inserting, so
the next dequeue gives the first item and the queue is empty. -/
theorem shutdown_wakes_scenario :
    dequeue (queue_init 2 (heap_ok (fun _ => 0))) = .waits ∧
    run (queue_init 2 (heap_ok (fun _ => 0))) [.shut, .deq] =
      .returns (some ⟨[0, 0], 2, 0, 0, 0, true⟩) [.unit, .ptr NULL] ∧
    run (queue_init 1 (heap_ok (fun _ => 0))) [.enq 1, .enq 2] = .waits ∧
    run (queue_init 1 (heap_ok (fun _ => 0))) [.enq 1, .shut, .enq 2, .deq, .empty] =
      .returns (some ⟨[1], 1, 0, 0, 0, true⟩)
        [.unit, .unit, .unit, .ptr 1, .bool true] := by
  decide

/-- Along a returning sequence of calls from a well-formed state, the items
held at the start followed by the items accepted are the items handed out
followed by the items held at the end. -/
theorem ledger_balance {s0 : queue} (h : wf s0) {ops : List Op} {q : queue_t}
    {vs : List Ret} (hr : run (some s0) ops = .returns q vs) :
    ∃ s, q = some s ∧
      contents s0 ++ accepted (some s0) ops = handed_out (some s0) ops ++ contents s := by
  induction ops generalizing s0 vs with
  | nil =>
    simp only [run, Outcome.returns.injEq] at hr
    exact ⟨s0, hr.1.symm, by simp [accepted, handed_out]⟩
  | cons o os ih =>
    cases hc : call (some s0) o with
    | waits => simp [run, hc] at hr
    | fault => simp [run, hc] at hr
    | returns q1 v =>
      obtain ⟨s1, hq1, hw1⟩ := (call_sim h o).2 q1 v hc
      subst hq1
      simp only [run, hc] at hr
      cases hr1 : run (some s1) os with
      | waits => simp [hr1, Outcome.mapv] at hr
      | fault => simp [hr1, Outcome.mapv] at hr
      | returns q2 vs2 =>
        simp only [hr1, Outcome.mapv, Outcome.returns.injEq] at hr
        obtain ⟨hq, -⟩ := hr
        subst hq
        obtain ⟨s, hs, hb⟩ := ih hw1 hr1
        refine ⟨s, hs, ?_⟩
        cases o with
        | enq x =>
          cases hsd : s0.shutdown with
          | true =>
            have he : s1 = s0 := by
              simp [call, enqueue, hsd, Outcome.mapv] at hc
              exact hc.1.symm
            subst he
            simp only [accepted, handed_out, hc, hsd]
            simpa using hb
          | false =>
            by_cases hcc : s0.count = s0.capacity
            · simp [call, enqueue, hsd, hcc, Outcome.mapv] at hc
            · have hlt : s0.count < s0.capacity := by
                have := h.2.2.2.2.2.1
                omega
              have he : s1 = stored s0 x := by
                rw [call, enqueue_stores h hsd hlt] at hc
                simp [Outcome.mapv] at hc
                exact hc.1.symm
              subst he
              rw [contents_stored h hlt] at hb
              simp only [accepted, handed_out, hc, hsd]
              simpa using hb
        | deq =>
          by_cases hcc : s0.count = 0
          · cases hsd : s0.shutdown with
            | false => simp [call, dequeue, hsd, hcc, Outcome.mapv] at hc
            | true =>
              have he : s1 = s0 ∧ v = Ret.ptr NULL := by
                simp [call, dequeue, hsd, hcc, Outcome.mapv] at hc
                exact ⟨hc.1.symm, hc.2.symm⟩
              obtain ⟨he1, he2⟩ := he
              subst he1 he2
              simp only [accepted, handed_out, hc, hsd, hcc]
              simpa using hb
          · have hpos : 0 < s0.count := by
              have := h.2.2.2.2.1
              omega
            have he : s1 = taken s0 ∧ v = Ret.ptr (s0.buf.getD s0.head.toNat NULL) := by
              rw [call, dequeue_takes h hpos] at hc
              simp only [Outcome.mapv, Outcome.returns.injEq, Option.some.injEq] at hc
              exact ⟨hc.1.symm, hc.2.symm⟩
            obtain ⟨he1, he2⟩ := he
            subst he1 he2
            rw [contents_taken h hpos]
            simp only [accepted, handed_out, hc]
            simp [hcc, hb]
        | shut =>
          have he : s1 = { s0 with shutdown := true } := by
            simp [call, queue_shutdown, Outcome.mapv] at hc
            exact hc.1.symm
          subst he
          simp only [accepted, handed_out, hc]
          exact hb
        | empty =>
          have he : s1 = s0 := by
            simp [call, is_empty, Outcome.mapv] at hc
            exact hc.1.symm
          subst he
          simp only [accepted, handed_out, hc]
          exact hb
        | isshut =>
          have he : s1 = s0 := by
            simp [call, is_shutdown, Outcome.mapv] at hc
            exact hc.1.symm
          subst he
          simp only [accepted, handed_out, hc]
          exact hb

/-- C15: conservation of items.  For every interleaving of producers and
consumers, taken as a sequence `ops` of complete calls executed atomically
from `queue_init k`, if all the calls return and leave the state `s`, then
the items accepted by the enqueues, in the order accepted, are the items
handed out by the dequeues, in the order handed out, followed by the items
still buffered.  Hence the number accepted is the number handed out plus
`count`, the multiset accepted is the multiset handed out plus the multiset
buffered, and when the queue ends empty (`count = 0`, `is_empty` true) exactly
the accepted items have been handed out: nothing is lost or duplicated. -/
theorem conservation_of_items (k : Int) (junk : Nat → Ptr) (ops : List Op) (s : queue)
    (vs : List Ret) (hr : run (queue_init k (heap_ok junk)) ops = .returns (some s) vs) :
    accepted (queue_init k (heap_ok junk)) ops =
      handed_out (queue_init k (heap_ok junk)) ops ++ contents s ∧
    ((accepted (queue_init k (heap_ok junk)) ops).length : Int) =
      ((handed_out (queue_init k (heap_ok junk)) ops).length : Int) + s.count ∧
    (↑(accepted (queue_init k (heap_ok junk)) ops) : Multiset Ptr) =
      ↑(handed_out (queue_init k (heap_ok junk)) ops) + ↑(contents s) ∧
    (s.count = 0 →
      accepted (queue_init k (heap_ok junk)) ops =
        handed_out (queue_init k (heap_ok junk)) ops ∧
      is_empty (some s) = .returns (some s) true) := by
  have hw : wf s := reachable_wf ⟨ops, vs, hr⟩
  have hb : accepted (queue_init k (heap_ok junk)) ops =
      handed_out (queue_init k (heap_ok junk)) ops ++ contents s := by
    rw [queue_init_eq] at hr ⊢
    obtain ⟨s', hs', hb⟩ := ledger_balance (wf_init k junk) hr
    cases hs'
    simpa [contents] using hb
  refine ⟨hb, ?_, ?_, ?_⟩
  · rw [hb, List.length_append, contents_length]
    have := hw.2.2.2.2.1
    push_cast
    omega
  · rw [hb, Multiset.coe_add]
  · intro hc
    have hn : contents s = [] := by simp [contents, hc]
    rw [hn, List.append_nil] at hb
    exact ⟨hb, by simp [is_empty, hc]⟩

/-- C15 at capacity 2: two items are accepted, a third is dropped after
shutdown, and the drained queue has handed out exactly the two accepted. -/
theorem conservation_of_items_witness :
    accepted (queue_init 2 (heap_ok (fun _ => 0)))
        [.enq 1, .enq 2, .deq, .shut, .enq 3, .deq, .deq] =
      handed_out (queue_init 2 (heap_ok (fun _ => 0)))
        [.enq 1, .enq 2, .deq, .shut, .enq 3, .deq, .deq] ∧
    is_empty (some ⟨[1, 2], 2, 0, 0, 0, true⟩) = .returns (some ⟨[1, 2], 2, 0, 0, 0, true⟩) true :=
  (conservation_of_items 2 (fun _ => 0) [.enq 1, .enq 2, .deq, .shut, .enq 3, .deq, .deq]
    ⟨[1, 2], 2, 0, 0, 0, true⟩ [.unit, .unit, .ptr 1, .unit, .unit, .ptr 2, .ptr NULL]
    (by decide)).2.2.2 rfl

/-- The ledger of a producer and consumer interleaving at capacity 2. -/
theorem ledger_scenario :
    accepted (queue_init 2 (heap_ok (fun _ => 0)))
        [.enq 1, .enq 2, .deq, .shut, .enq 3, .deq, .deq] = [1, 2] ∧
    handed_out (queue_init 2 (heap_ok (fun _ => 0)))
        [.enq 1, .enq 2, .deq, .shut, .enq 3, .deq, .deq] = [1, 2] := by
  decide

/-- Every call on the null handle returns and leaves the handle null. -/
theorem call_null (o : Op) : ∃ v, call none o = .returns none v := by
  cases o <;> exact ⟨_, rfl⟩

/-- C13: invalid handle.  On a null queue handle `is_empty` returns true,
`is_shutdown` returns true, `dequeue` returns the empty-marker `NULL`, and
`enqueue`, `queue_shutdown` and `queue_destroy` return without any effect: no
call waits or faults, the handle stays null and no queue state exists that
could be read or written.  The same holds for every sequence of calls. -/
theorem null_handle_graceful :
    is_empty none = .returns none true ∧
    is_shutdown none = .returns none true ∧
    dequeue none = .returns none NULL ∧
    (∀ x, enqueue none x = .returns none ()) ∧
    queue_shutdown none = .returns none () ∧
    queue_destroy none = .returns none () ∧
    ∀ ops, ∃ vs, run none ops = .returns none vs ∧ vs.length = ops.length ∧
      accepted none ops = [] ∧ handed_out none ops = [] := by
  refine ⟨rfl, rfl, rfl, fun _ => rfl, rfl, rfl, ?_⟩
  intro ops
  induction ops with
  | nil => exact ⟨[], rfl, rfl, rfl, rfl⟩
  | cons o os ih =>
    obtain ⟨vs, hr, hl, ha, hh⟩ := ih
    obtain ⟨v, hv⟩ := call_null o
    refine ⟨v :: vs, ?_, ?_, ?_, ?_⟩
    · simp [run, hv, hr, Outcome.mapv]
    · simp [hl]
    · simp [accepted, hv, ha]
    · simp [handed_out, hv, hh]

/-- C16: `queue_shutdown` is idempotent.  For every queue state, applying
`queue_shutdown` twice yields exactly the state that applying it once yields,
and applying it to an already shut-down state changes nothing. -/
theorem shutdown_idempotent (s : queue) :
    queue_shutdown (some s) = .returns (some { s with shutdown := true }) () ∧
    queue_shutdown (some { s with shutdown := true }) =
      .returns (some { s with shutdown := true }) () ∧
    (run (some s) [Op.shut, Op.shut]).mapv (fun _ => ()) =
      (run (some s) [Op.shut]).mapv (fun _ => ()) ∧
    (s.shutdown = true → queue_shutdown (some s) = .returns (some s) ()) := by
  refine ⟨rfl, rfl, rfl, ?_⟩
  intro hs
  cases s
  simp only at hs
  simp [queue_shutdown, hs]

/-- C16 on a shut-down queue of capacity 2 holding one item: a further
`queue_shutdown` returns the very same state. -/
theorem shutdown_idempotent_witness :
    queue_shutdown (some ⟨[7, 8], 2, 1, 0, 1, true⟩) =
      .returns (some ⟨[7, 8], 2, 1, 0, 1, true⟩) () :=
  (shutdown_idempotent ⟨[7, 8], 2, 1, 0, 1, true⟩).2.2.2 rfl

/-- C17: enqueue step.  For every well-formed state that is not shut down and
has `count < capacity`, and every item `x`, `enqueue` returns; in the state it
leaves slot `tail` holds `x`, `tail` is `(tail + 1) mod capacity`, `count` is
`count + 1`, and `head`, `capacity`, the shutdown flag, the number of slots
and every other buffer slot are unchanged. -/
theorem enqueue_step (s : queue) (x : Ptr) (hw : wf s) (hs : s.shutdown = false)
    (hc : s.count < s.capacity) :
    ∃ s', enqueue (some s) x = .returns (some s') () ∧
      s'.buf[s.tail.toNat]? = some x ∧
      s'.tail = (s.tail + 1) % s.capacity ∧
      s'.count = s.count + 1 ∧
      s'.head = s.head ∧ s'.capacity = s.capacity ∧ s'.shutdown = s.shutdown ∧
      s'.buf.length = s.buf.length ∧
      ∀ i : Nat, i ≠ s.tail.toNat → s'.buf[i]? = s.buf[i]? := by
  have ht := wf_tail_bounds hw
  have h2 := hw.2.1
  refine ⟨stored s x, enqueue_stores hw hs hc x, ?_, ?_, rfl, rfl, rfl, rfl, ?_, ?_⟩
  · show (s.buf.set s.tail.toNat x)[s.tail.toNat]? = some x
    rw [List.getElem?_set_self]
    omega
  · show (s.tail + 1).tmod s.capacity = (s.tail + 1) % s.capacity
    exact Int.tmod_eq_emod (by omega) (by omega)
  · show (s.buf.set s.tail.toNat x).length = s.buf.length
    simp
  · intro i hi
    show (s.buf.set s.tail.toNat x)[i]? = s.buf[i]?
    exact List.getElem?_set_ne (Ne.symm hi)

/-- C17 at capacity 3 with `head = 1`, `tail = 0`, two items held: the enqueue
of 4 writes slot 0 and moves `tail` to 1. -/
theorem enqueue_step_witness :
    ∃ s', enqueue (some ⟨[1, 2, 3], 3, 1, 0, 2, false⟩) 4 = .returns (some s') () ∧
      s'.buf[0]? = some 4 ∧ s'.tail = 1 ∧ s'.count = 3 ∧
      s'.head = 1 ∧ s'.capacity = 3 ∧ s'.shutdown = false ∧
      s'.buf.length = 3 ∧
      ∀ i : Nat, i ≠ 0 → s'.buf[i]? = [1, 2, 3][i]? :=
  enqueue_step ⟨[1, 2, 3], 3, 1, 0, 2, false⟩ 4 (by decide) rfl (by decide)

/-- C18: dequeue step.  For every well-formed state with `count > 0`, shut down
or not, `dequeue` returns the item in slot `head`; in the state it leaves
`head` is `(head + 1) mod capacity`, `count` is `count - 1`, and `tail`,
`capacity`, the shutdown flag and the buffer contents are unchanged. -/
theorem dequeue_step (s : queue) (hw : wf s) (hc : 0 < s.count) :
    ∃ s' v, dequeue (some s) = .returns (some s') v ∧
      s.buf[s.head.toNat]? = some v ∧
      s'.head = (s.head + 1) % s.capacity ∧
      s'.count = s.count - 1 ∧
      s'.tail = s.tail ∧ s'.capacity = s.capacity ∧ s'.shutdown = s.shutdown ∧
      s'.buf = s.buf := by
  have hw0 := hw
  obtain ⟨h1, h2, h3, h4, -, -, -⟩ := hw0
  refine ⟨taken s, _, dequeue_takes hw hc, ?_, ?_, rfl, rfl, rfl, rfl, rfl⟩
  · have hlt : s.head.toNat < s.buf.length := by omega
    rw [List.getD_eq_getElem?_getD, List.getElem?_eq_getElem hlt]
    simp
  · show (s.head + 1).tmod s.capacity = (s.head + 1) % s.capacity
    exact Int.tmod_eq_emod (by omega) (by omega)

/-- C18 on a shut-down queue of capacity 3 with `head = 2`: the dequeue returns
slot 2 and `head` wraps to 0. -/
theorem dequeue_step_witness :
    ∃ s' v, dequeue (some ⟨[4, 2, 3], 3, 2, 1, 2, true⟩) = .returns (some s') v ∧
      [4, 2, 3][2]? = some v ∧ s'.head = 0 ∧ s'.count = 1 ∧
      s'.tail = 1 ∧ s'.capacity = 3 ∧ s'.shutdown = true ∧
      s'.buf = [4, 2, 3] :=
  dequeue_step ⟨[4, 2, 3], 3, 2, 1, 2, true⟩ (by decide) (by decide)

/-- No call of the specification queue faults, and none changes the capacity. -/
theorem fifo_call_safe (a : fifo) (o : Op) :
    fifo_call a o ≠ .fault ∧ ∀ b w, fifo_call a o = .returns b w → b.cap = a.cap := by
  cases o with
  | enq x =>
    simp only [fifo_call]
    split
    · exact ⟨by simp, fun b w h => by cases h; rfl⟩
    · split
      · exact ⟨by simp, fun b w h => by cases h⟩
      · exact ⟨by simp, fun b w h => by cases h; rfl⟩
  | deq =>
    simp only [fifo_call]
    split
    · split
      · exact ⟨by simp, fun b w h => by cases h; rfl⟩
      · exact ⟨by simp, fun b w h => by cases h⟩
    · exact ⟨by simp, fun b w h => by cases h; rfl⟩
  | shut => exact ⟨by simp [fifo_call], fun b w h => by cases h; rfl⟩
  | empty => exact ⟨by simp [fifo_call], fun b w h => by cases h; rfl⟩
  | isshut => exact ⟨by simp [fifo_call], fun b w h => by cases h; rfl⟩

/-- No sequence of calls of the specification queue faults, and none changes
the capacity. -/
theorem fifo_run_safe (ops : List Op) (a : fifo) :
    fifo_run a ops ≠ .fault ∧ ∀ b w, fifo_run a ops = .returns b w → b.cap = a.cap := by
  induction ops generalizing a with
  | nil => exact ⟨by simp [fifo_run], fun b w h => by cases h; rfl⟩
  | cons o os ih =>
    obtain ⟨h1, h2⟩ := fifo_call_safe a o
    cases hc : fifo_call a o with
    | waits => exact ⟨by simp [fifo_run, hc], fun b w h => by simp [fifo_run, hc] at h⟩
    | fault => exact absurd hc h1
    | returns a1 v =>
      obtain ⟨h3, h4⟩ := ih a1
      have hcap := h2 a1 v hc
      cases hr : fifo_run a1 os with
      | waits =>
        exact ⟨by simp [fifo_run, hc, hr, Outcome.mapv],
          fun b w h => by simp [fifo_run, hc, hr, Outcome.mapv] at h⟩
      | fault => exact absurd hr h3
      | returns a2 vs =>
        refine ⟨by simp [fifo_run, hc, hr, Outcome.mapv], fun b w h => ?_⟩
        simp only [fifo_run, hc, hr, Outcome.mapv, Outcome.returns.injEq] at h
        rw [← h.1, h4 a2 vs hr, hcap]

/-- No sequence of calls on a well-formed state faults. -/
theorem run_ne_fault {s : queue} (h : wf s) (ops : List Op) : run (some s) ops ≠ .fault := by
  intro hf
  have hsim := run_sim h ops
  rw [hf] at hsim
  cases hr : fifo_run (view s) ops with
  | waits => simp [hr, Outcome.maps] at hsim
  | fault => exact (fifo_run_safe ops (view s)).1 hr
  | returns a vs => simp [hr, Outcome.maps] at hsim

/-- The capacity of a reachable state is the coerced requested capacity. -/
theorem reachable_capacity {c : Int} {junk : Nat → Ptr} {s : queue}
    (h : Reachable c junk s) : s.capacity = max c 1 := by
  obtain ⟨ops, vs, hr⟩ := h
  rw [queue_init_eq] at hr
  obtain ⟨s', hs', -, hf⟩ := fifo_run_of_run (wf_init c junk) hr
  cases hs'
  have := (fifo_run_safe ops _).2 _ _ hf
  rw [view_init] at this
  exact this

/-- C19: indices stay inside the buffer.  In every state reachable from
`queue_init c`, for any integer `c`, `capacity >= 1` (it is `max(c, 1)`, so
the remainder is never by zero), the buffer has `capacity` slots,
`0 <= head < capacity` and `0 <= tail < capacity`.  So the slot `dequeue`
reads and the slot `enqueue` writes are allocated slots: neither call, and no
sequence of calls, ends in undefined behaviour. -/
theorem indices_in_bounds (c : Int) (junk : Nat → Ptr) (s : queue)
    (h : Reachable c junk s) :
    1 ≤ s.capacity ∧ s.capacity = max c 1 ∧ (s.buf.length : Int) = s.capacity ∧
    0 ≤ s.head ∧ s.head < s.capacity ∧ 0 ≤ s.tail ∧ s.tail < s.capacity ∧
    in_bounds s.buf s.head = true ∧ in_bounds s.buf s.tail = true ∧
    (∀ x, enqueue (some s) x ≠ .fault) ∧ dequeue (some s) ≠ .fault ∧
    ∀ ops, run (some s) ops ≠ .fault := by
  have hw := reachable_wf h
  have ht := wf_tail_bounds hw
  obtain ⟨h1, h2, h3, h4, h5, h6, h7⟩ := hw
  have hbh : in_bounds s.buf s.head = true := by simp [in_bounds, h2, h3, h4]
  have hbt : in_bounds s.buf s.tail = true := by simp [in_bounds, h2, ht.1, ht.2]
  have hc0 : s.capacity ≠ 0 := by omega
  refine ⟨h1, reachable_capacity h, h2, h3, h4, ht.1, ht.2, hbh, hbt, ?_, ?_,
    run_ne_fault (reachable_wf h)⟩
  · intro x
    simp only [enqueue, hbt, hc0]
    split
    · simp
    · split <;> simp [hc0]
  · simp only [dequeue, hbh, hc0]
    split
    · simp
    · split
      · simp
      · simp [hc0]

/-- C19 on the wrapped state reached at capacity 3 by
`enqueue 1, 2, 3; dequeue; enqueue 4`. -/
theorem indices_in_bounds_witness :
    1 ≤ (⟨[4, 2, 3], 3, 1, 1, 3, false⟩ : queue).capacity ∧
    0 ≤ (⟨[4, 2, 3], 3, 1, 1, 3, false⟩ : queue).head ∧
    (⟨[4, 2, 3], 3, 1, 1, 3, false⟩ : queue).head <
      (⟨[4, 2, 3], 3, 1, 1, 3, false⟩ : queue).capacity ∧
    dequeue (some ⟨[4, 2, 3], 3, 1, 1, 3, false⟩) ≠ .fault :=
  have h := indices_in_bounds 3 (fun _ => 0) ⟨[4, 2, 3], 3, 1, 1, 3, false⟩
    ⟨[.enq 1, .enq 2, .enq 3, .deq, .enq 4], [.unit, .unit, .unit, .ptr 1, .unit],
      by decide⟩
  ⟨h.1, h.2.2.2.1, h.2.2.2.2.1, h.2.2.2.2.2.2.2.2.2.2.1⟩

/-- C14: `is_empty` is an exact, side-effect-free snapshot.  In every state
reached from `queue_init c` by a sequence of calls that returned, `is_empty`
returns and leaves the state as it is (no field changes), and it returns
true if and only if `count = 0`, if and only if no item is buffered, if and
only if as many items have been handed out by dequeues as were accepted by
enqueues.  In particular it is true right after `queue_init` and false after
one enqueue. -/
theorem is_empty_snapshot (c : Int) (junk : Nat → Ptr) (ops : List Op) (s : queue)
    (vs : List Ret) (hr : run (queue_init c (heap_ok junk)) ops = .returns (some s) vs) :
    (∃ b, is_empty (some s) = .returns (some s) b ∧ (b = true ↔ s.count = 0) ∧
      (b = true ↔ contents s = []) ∧
      (b = true ↔ (accepted (queue_init c (heap_ok junk)) ops).length =
        (handed_out (queue_init c (heap_ok junk)) ops).length)) ∧
    (∀ x, ∃ s1, run (queue_init c (heap_ok junk)) [Op.empty, Op.enq x, Op.empty] =
      .returns (some s1) [Ret.bool true, Ret.unit, Ret.bool false]) := by
  have hw : wf s := reachable_wf ⟨ops, vs, hr⟩
  have hlen := contents_length s
  have h5 := hw.2.2.2.2.1
  constructor
  · refine ⟨s.count == 0, rfl, by simp, ?_, ?_⟩
    · rw [beq_iff_eq]
      constructor
      · intro hc
        simp [contents, hc]
      · intro hn
        exact count_zero_of_contents_nil hw hn
    · rw [beq_iff_eq]
      have hb : accepted (queue_init c (heap_ok junk)) ops =
          handed_out (queue_init c (heap_ok junk)) ops ++ contents s := by
        rw [queue_init_eq] at hr ⊢
        obtain ⟨s', hs', hb⟩ := ledger_balance (wf_init c junk) hr
        cases hs'
        simpa [contents] using hb
      rw [hb, List.length_append, hlen]
      omega
  · intro x
    have h1 : 1 ≤ max c 1 := le_max_right c 1
    have hf : fifo_run (fifo_init c) [Op.empty, Op.enq x, Op.empty] =
        .returns { cap := max c 1, items := [x], closed := false }
          [Ret.bool true, Ret.unit, Ret.bool false] := by
      have hne : ¬ ((0 : Int) = max c 1) := by omega
      simp [fifo_run, fifo_call, fifo_init, Outcome.mapv, hne]
    rw [← view_init c junk] at hf
    obtain ⟨s1, hr1, -, -⟩ := run_of_fifo_run (wf_init c junk) hf
    rw [← queue_init_eq] at hr1
    exact ⟨s1, hr1⟩

/-- C14 at capacity 2 after `enqueue 7, 8; dequeue; dequeue`: the queue is
drained and `is_empty` is true. -/
theorem is_empty_snapshot_witness :
    ∃ b, is_empty (some ⟨[7, 8], 2, 0, 0, 0, false⟩) =
        .returns (some ⟨[7, 8], 2, 0, 0, 0, false⟩) b ∧
      (b = true ↔ (⟨[7, 8], 2, 0, 0, 0, false⟩ : queue).count = 0) ∧
      (b = true ↔ contents ⟨[7, 8], 2, 0, 0, 0, false⟩ = []) ∧
      (b = true ↔ (accepted (queue_init 2 (heap_ok (fun _ => 0)))
          [.enq 7, .enq 8, .deq, .deq]).length =
        (handed_out (queue_init 2 (heap_ok (fun _ => 0)))
          [.enq 7, .enq 8, .deq, .deq]).length) :=
  (is_empty_snapshot 2 (fun _ => 0) [.enq 7, .enq 8, .deq, .deq] ⟨[7, 8], 2, 0, 0, 0, false⟩
    [.unit, .unit, .ptr 7, .ptr 8] (by decide)).1

/-- The scenario of the test suite at capacity 2: `is_empty` is true after
construction, false after each of two enqueues, false after the first dequeue
and true again after the second. -/
theorem is_empty_scenario :
    run (queue_init 2 (heap_ok (fun _ => 0)))
        [.empty, .enq 7, .empty, .enq 8, .empty, .deq, .empty, .deq, .empty] =
      .returns (some ⟨[7, 8], 2, 0, 0, 0, false⟩)
        [.bool true, .unit, .bool false, .unit, .bool false, .ptr 7, .bool false, .ptr 8,
          .bool true] := by
  decide

/-- C20: ring well-formedness.  In every state reachable from `queue_init c` by
enqueue, dequeue and `queue_shutdown` steps (and the two read-only calls),
`tail = (head + count) mod capacity`; `head = tail` holds exactly when the
queue is empty or full (`count = 0` or `count = capacity`); and whenever an
enqueue stores its item, the slot `tail` it writes is none of the `count`
slots `(head + i) mod capacity`, `i < count`, that hold the undequeued items,
so these items are all still there, followed by the new one. -/
theorem ring_wellformed (c : Int) (junk : Nat → Ptr) (s : queue)
    (h : Reachable c junk s) :
    s.tail = (s.head + s.count) % s.capacity ∧
    (s.head = s.tail ↔ (s.count = 0 ∨ s.count = s.capacity)) ∧
    (∀ x s', s.shutdown = false → enqueue (some s) x = .returns (some s') () →
      (∀ i : Nat, (i : Int) < s.count → (s.head + (i : Int)) % s.capacity ≠ s.tail) ∧
      s'.buf[s.tail.toNat]? = some x ∧
      contents s' = contents s ++ [x]) := by
  have hw := reachable_wf h
  obtain ⟨h1, h2, h3, h4, h5, h6, h7⟩ := hw
  refine ⟨h7, ?_, ?_⟩
  · constructor
    · intro he
      by_contra hn
      have hpos : 0 < s.count := by omega
      have hlt : s.count < s.capacity := by omega
      have hne : (s.head + 0) % s.capacity ≠ (s.head + s.count) % s.capacity :=
        slot_ne hpos (by omega)
      rw [← h7, Int.add_zero, Int.emod_eq_of_lt h3 h4] at hne
      exact hne he
    · intro hc
      rcases hc with hc | hc
      · rw [h7, hc, Int.add_zero, Int.emod_eq_of_lt h3 h4]
      · rw [h7, hc, Int.add_emod_self, Int.emod_eq_of_lt h3 h4]
  · intro x s' hs he
    have hlt : s.count < s.capacity := by
      have hne : ¬ (s.count = s.capacity) := by
        intro hc
        simp [enqueue, hs, hc] at he
      omega
    have hw : wf s := ⟨h1, h2, h3, h4, h5, h6, h7⟩
    rw [enqueue_stores hw hs hlt] at he
    simp only [Outcome.returns.injEq, Option.some.injEq, and_true] at he
    subst he
    refine ⟨?_, ?_, contents_stored hw hlt x⟩
    · intro i hi
      rw [h7]
      exact slot_ne hi (by omega)
    · have ht := wf_tail_bounds hw
      show (s.buf.set s.tail.toNat x)[s.tail.toNat]? = some x
      rw [List.getElem?_set_self]
      omega

/-- C20 on the wrapped full state reached at capacity 3 by
`enqueue 1, 2, 3; dequeue; enqueue 4`. -/
theorem ring_wellformed_witness :
    (⟨[4, 2, 3], 3, 1, 1, 3, false⟩ : queue).tail =
      ((⟨[4, 2, 3], 3, 1, 1, 3, false⟩ : queue).head +
        (⟨[4, 2, 3], 3, 1, 1, 3, false⟩ : queue).count) %
        (⟨[4, 2, 3], 3, 1, 1, 3, false⟩ : queue).capacity ∧
    ((⟨[4, 2, 3], 3, 1, 1, 3, false⟩ : queue).head =
        (⟨[4, 2, 3], 3, 1, 1, 3, false⟩ : queue).tail ↔
      ((⟨[4, 2, 3], 3, 1, 1, 3, false⟩ : queue).count = 0 ∨
        (⟨[4, 2, 3], 3, 1, 1, 3, false⟩ : queue).count =
          (⟨[4, 2, 3], 3, 1, 1, 3, false⟩ : queue).capacity)) :=
  have h := ring_wellformed 3 (fun _ => 0) ⟨[4, 2, 3], 3, 1, 1, 3, false⟩
    ⟨[.enq 1, .enq 2, .enq 3, .deq, .enq 4], [.unit, .unit, .unit, .ptr 1, .unit],
      by decide⟩
  ⟨h.1, h.2.1⟩

end Lab
